import Mathlib

/-!
Verification of the ptraf user-space pipeline: a shallow embedding of the
statistics store (src/ptraf/src/store.rs), the monotonic clock
(src/ptraf/src/clock.rs), the filter language (src/ptraf-filter), and the
view/collector layer (src/ptraf/src/ui*.rs), together with theorems that
settle the frozen claims about them.

Durations and timestamps are modelled in nanoseconds as natural numbers
(Timestamp is a transparent wrapper over std::time::Duration in the source;
the source converts to u64 nanoseconds before arithmetic).  The atomic u64
counters of a segment are modelled as natural numbers: none of the settled
claims concerns counter wrap-around.  Concurrency is modelled sequentially:
every operation is a pure state transformer, which matches the source's
behaviour for a single writer and is the setting of the claims.
-/

namespace Ptraf

/-! ### Clock (src/ptraf/src/clock.rs) -/

/-- Embeds Timestamp::trunc: nanos - nanos % window.  In the source the
remainder of a division by a zero window panics; the total function below is
paired with truncChecked, which makes that panic explicit. -/
def trunc (ts w : Nat) : Nat := ts - ts % w

/-- Embeds Timestamp::trunc with the panic made explicit: the source computes
nanos % (window.as_nanos() as u64) which panics (division by zero) when the
window is the zero duration. -/
def truncChecked (ts w : Nat) : Option Nat :=
  if w = 0 then none else some (trunc ts w)

/-- Embeds Timestamp::saturating_elapsed_since (saturating subtraction on
durations); note the source computes other - self. -/
def saturatingElapsedSince (selfTs other : Nat) : Nat := other - selfTs

/-! ### Event records (ptraf-common types and their user-side accessors) -/

/-- Embeds the domain value of ptraf-common IpAddr after conversion to
std::net::IpAddr: a tagged variant of a v4 or v6 address payload. -/
inductive IpAddress
  | v4 (addr : Nat)
  | v6 (addr : Nat)
  deriving DecidableEq, Repr

/-- Embeds std::net::SocketAddr as used by the store: an ip and a port. -/
structure SockAddr where
  ip : IpAddress
  port : Nat
  deriving DecidableEq, Repr

/-- Embeds ptraf-common SockType (the socket type tag). -/
inductive SockType
  | stream | dgram | raw | rdm | seqpacket | dccp | packet | unknown
  deriving DecidableEq, Repr

/-- Embeds ptraf-common Channel. -/
inductive Channel
  | tx
  | rx
  deriving DecidableEq, Repr

/-- Embeds SockMsgEvent.  The copy of ptraf-common/src/types.rs in the tree is
an earlier revision carrying len: u32, while src/ptraf/src/store.rs and its
tests use the signed ret: i32 field; the ret field is therefore taken from the
store's usage and the spec (ret >= 0 is the payload length, ret < 0 is
-errno).  Ports are modelled in host order. -/
structure SockMsgEvent where
  sock_type : SockType
  local_addr : IpAddress
  remote_addr : IpAddress
  local_port : Nat
  remote_port : Nat
  ret : Int
  pid : Nat
  channel : Channel
  deriving DecidableEq, Repr

/-- Modelled from the spec: SockMsgEvent::packet_size is absent from the
tree's ptraf-common/src/types.rs (only its caller Segment::batch_update is
present); per the spec, ret >= 0 denotes the payload length in bytes and a
successful call, ret < 0 denotes -errno and must be dropped. -/
def SockMsgEvent.packet_size (m : SockMsgEvent) : Option Nat :=
  if 0 ≤ m.ret then some m.ret.toNat else none

/-- Modelled from the spec: SockMsgEvent::local_sock_addr (absent from the
tree's types.rs) pairs the local address with the local port. -/
def SockMsgEvent.local_sock_addr (m : SockMsgEvent) : SockAddr :=
  ⟨m.local_addr, m.local_port⟩

/-- Modelled from the spec: SockMsgEvent::remote_sock_addr (absent from the
tree's types.rs) pairs the remote address with the remote port. -/
def SockMsgEvent.remote_sock_addr (m : SockMsgEvent) : SockAddr :=
  ⟨m.remote_addr, m.remote_port⟩

/-! ### Stats and interests (src/ptraf/src/store.rs) -/

/-- Embeds Stat (and the numeric content of Metrics, whose Traffic counters
are atomic u64 size and count pairs for rx and tx). -/
structure Stat where
  rx : Nat
  rx_packet_count : Nat
  tx : Nat
  tx_packet_count : Nat
  deriving DecidableEq, Repr

instance : Inhabited Stat := ⟨⟨0, 0, 0, 0⟩⟩

/-- Embeds Stat::total: rx + tx bytes. -/
def Stat.total (s : Stat) : Nat := s.rx + s.tx

/-- Embeds Stat::merge: componentwise addition. -/
def Stat.merge (a b : Stat) : Stat :=
  ⟨a.rx + b.rx, a.rx_packet_count + b.rx_packet_count,
   a.tx + b.tx, a.tx_packet_count + b.tx_packet_count⟩

/-- Embeds Metrics::increment via Traffic::increment: adds val to the
channel's byte counter and count to its packet counter. -/
def Stat.increment (s : Stat) (ch : Channel) (val count : Nat) : Stat :=
  match ch with
  | .rx => { s with rx := s.rx + val, rx_packet_count := s.rx_packet_count + count }
  | .tx => { s with tx := s.tx + val, tx_packet_count := s.tx_packet_count + count }

/-- Embeds the aggregation key Interest of src/ptraf/src/store.rs.  The tree's
store.rs enumerates RemoteIp, RemoteSocket, LocalSocket and Pid; the All
variant is modelled from the spec, since src/ptraf/src/ui.rs
(Filter::interest) uses Interest::All but the variant is absent from the
tree's store.rs. -/
inductive Interest
  | all
  | remoteIp (ip : IpAddress)
  | remoteSocket (a : SockAddr)
  | localSocket (a : SockAddr)
  | pid (p : Nat)
  deriving DecidableEq, Repr

/-- Embeds Interest::interests_from_msg: the four keys touched by an event. -/
def Interest.interests_from_msg (m : SockMsgEvent) : List Interest :=
  [Interest.pid m.pid,
   Interest.localSocket m.local_sock_addr,
   Interest.remoteSocket m.remote_sock_addr,
   Interest.remoteIp m.remote_addr]

/-- Embeds Socket; equality and hashing in the source use the local endpoint
only, which is modelled where sockets are deduplicated. -/
structure Socket where
  pid : Nat
  «local» : SockAddr
  remote : SockAddr
  sock_type : SockType
  deriving DecidableEq, Repr

/-- Embeds the From<&SockMsgEvent> conversion to Socket. -/
def Socket.ofMsg (m : SockMsgEvent) : Socket :=
  ⟨m.pid, m.local_sock_addr, m.remote_sock_addr, m.sock_type⟩

/-- Embeds DashSet::insert under Socket's local-endpoint equality: insert if
no socket with the same local endpoint is present, otherwise keep the set. -/
def socksInsert (l : List Socket) (s : Socket) : List Socket :=
  if l.any (fun x => decide (x.«local» = s.«local»)) then l else s :: l

/-! ### Segment (src/ptraf/src/store.rs) -/

/-- Embeds Segment: the separately materialized total Metrics, the
Interest-to-Metrics index (DashMap) and the socket set (DashSet). -/
structure Segment where
  total : Stat
  index : Interest → Option Stat
  socks : List Socket

instance : Inhabited Segment := ⟨⟨default, fun _ => none, []⟩⟩

/-- Embeds the index entry update of Segment::batch_update: and_modify
increments the existing Metrics, or_insert_with increments a default one;
both amount to incrementing the present-or-default entry. -/
def indexIncrement (idx : Interest → Option Stat) (k : Interest)
    (ch : Channel) (len : Nat) : Interest → Option Stat :=
  fun i => if i = k then some (((idx k).getD default).increment ch len 1) else idx i

/-- Accumulator of Segment::batch_update's loop: the index and socket set
under mutation plus the local rx/tx byte and packet tallies that are added to
the segment total once at the end of the batch. -/
structure BatchAcc where
  index : Interest → Option Stat
  socks : List Socket
  rx : Nat
  tx : Nat
  rx_n : Nat
  tx_n : Nat

/-- Embeds one iteration of Segment::batch_update's loop: events whose
packet_size is an error are skipped; otherwise the channel tallies grow, the
socket is registered and the four interest keys are incremented. -/
def BatchAcc.step (acc : BatchAcc) (m : SockMsgEvent) : BatchAcc :=
  match m.packet_size with
  | none => acc
  | some len =>
    let acc1 :=
      match m.channel with
      | .tx => { acc with tx := acc.tx + len, tx_n := acc.tx_n + 1 }
      | .rx => { acc with rx := acc.rx + len, rx_n := acc.rx_n + 1 }
    let acc2 := { acc1 with socks := socksInsert acc1.socks (Socket.ofMsg m) }
    { acc2 with
      index := (Interest.interests_from_msg m).foldl
        (fun idx k => indexIncrement idx k m.channel len) acc2.index }

/-- Embeds Segment::batch_update: fold the loop body over the batch, then add
the accumulated rx and tx tallies to the segment total. -/
def Segment.batch_update (seg : Segment) (msgs : List SockMsgEvent) : Segment :=
  let acc := msgs.foldl BatchAcc.step ⟨seg.index, seg.socks, 0, 0, 0, 0⟩
  { total := (seg.total.increment .rx acc.rx acc.rx_n).increment .tx acc.tx acc.tx_n,
    index := acc.index,
    socks := acc.socks }

/-- Embeds Segment::total via Metrics::get: both channels' bytes when no
channel is given, else that channel's bytes. -/
def Segment.total_get (seg : Segment) (ch : Option Channel) : Nat :=
  match ch with
  | none => seg.total.tx + seg.total.rx
  | some .rx => seg.total.rx
  | some .tx => seg.total.tx

/-- Embeds Segment::total_packet_count via Metrics::packet_count. -/
def Segment.total_packet_count (seg : Segment) : Nat :=
  seg.total.tx_packet_count + seg.total.rx_packet_count

/-- Embeds Segment::stat_by_interest: an index lookup.  The Interest::All
branch is modelled from the spec (the All variant is absent from the tree's
store.rs): All must return the separately materialized total. -/
def Segment.stat_by_interest (seg : Segment) (i : Interest) : Option Stat :=
  match i with
  | .all => some seg.total
  | _ => seg.index i

/-! ### Store (src/ptraf/src/store.rs) -/

/-- Embeds TimeSegment: a truncated timestamp key and its segment. -/
structure TimeSegment where
  ts : Nat
  segment : Segment

/-- Embeds Store: the window, the maximum number of segments and the VecDeque
of time segments (front of the list = front of the deque = oldest). -/
structure Store where
  window : Nat
  capacity : Nat
  segments : List TimeSegment

/-- Embeds Store::new: plain construction, no validation of window or
capacity. -/
def Store.new (window capacity : Nat) : Store := ⟨window, capacity, []⟩

/-- Key sequence of the store's segments, oldest first. -/
def Store.keys (s : Store) : List Nat := s.segments.map (·.ts)

/-- Timestamp key of the newest (back) segment, if any. -/
def Store.lastTs (s : Store) : Option Nat := (s.segments.getLast?).map (·.ts)

/-- Embeds the eviction-then-append step of Store::write_segment's loop: if
the deque is at capacity the oldest segment is popped from the front, then a
fresh empty segment with the given key is pushed to the back. -/
def Store.pushEvict (s : Store) (key : Nat) : Store :=
  let segs := if s.capacity ≤ s.segments.length then s.segments.drop 1 else s.segments
  { s with segments := segs ++ [⟨key, default⟩] }

/-- Embeds the loop of Store::write_segment, fuel-indexed so that the
definition is total: while the back segment's key is below the target key,
append a segment keyed one window later (or at the target key when the store
is empty), evicting the oldest first when at capacity.  The fast path (back
key already at the target) and the slow path's re-check (back key at or past
the target) both return the store unchanged, exactly as the source returns a
handle on the current back segment in those cases.  write_segment supplies
fuel sufficient for the loop to reach its exit condition whenever the window
is positive (the source panics before entering the loop when the window is
zero, see truncChecked). -/
def Store.slowPath : Nat → Store → Nat → Store
  | 0, s, _ => s
  | fuel + 1, s, key =>
    match s.lastTs with
    | some back =>
      if key ≤ back then s
      else Store.slowPath fuel (s.pushEvict (back + s.window)) key
    | none => Store.slowPath fuel (s.pushEvict key) key

/-- Embeds Store::write_segment on an already-truncated key. -/
def Store.write_segment_key (s : Store) (key : Nat) : Store :=
  Store.slowPath (key + 2) s key

/-- Embeds Store::write_segment: truncate the timestamp to the window, then
run the segment-creation loop. -/
def Store.write_segment (s : Store) (ts : Nat) : Store :=
  s.write_segment_key (trunc ts s.window)

/-- Applies Segment::batch_update to the back segment of the deque, which is
the segment the WriteTimeSegment handle returned by write_segment derefs
to. -/
def writeBack (msgs : List SockMsgEvent) : List TimeSegment → List TimeSegment
  | [] => []
  | [t] => [⟨t.ts, t.segment.batch_update msgs⟩]
  | t :: rest => t :: writeBack msgs rest

/-- Embeds Store::batch_update: obtain the write segment for the truncated
timestamp, then batch-update it. -/
def Store.batch_update (s : Store) (ts : Nat) (msgs : List SockMsgEvent) : Store :=
  let s1 := s.write_segment ts
  { s1 with segments := writeBack msgs s1.segments }

/-- Embeds Store::batch_update with the trunc panic made explicit: on a store
whose window is the zero duration the ingest path panics inside
Timestamp::trunc before touching the deque. -/
def Store.batchUpdateChecked (s : Store) (ts : Nat) (msgs : List SockMsgEvent) :
    Option Store :=
  (truncChecked ts s.window).map fun key =>
    let s1 := s.write_segment_key key
    { s1 with segments := writeBack msgs s1.segments }

/-- Modelled from the spec: Store::oldest_timestamp is called by
src/ptraf/src/ui.rs (Ui::render) but is absent from the tree's store.rs.  Per
the spec it returns a timestamp that, passed to batch_update with zero
events, guarantees at least one segment whose newest key matches
now.trunc(window); the timestamp now itself has this property for any store
whose newest key does not exceed now.trunc(window). -/
def Store.oldest_timestamp (_s : Store) (now : Nat) : Nat := now

/-- One batch_update call per list element, in order. -/
def Store.applyCalls (s : Store) : List (Nat × List SockMsgEvent) → Store
  | [] => s
  | (ts, msgs) :: rest => Store.applyCalls (s.batch_update ts msgs) rest

/-! ### Filter language (src/ptraf-filter) -/

/-- Embeds Protocol of ptraf-filter frontend.rs. -/
inductive Protocol
  | tcp
  | udp
  deriving DecidableEq, Repr

/-- Embeds IpVersion of ptraf-filter frontend.rs. -/
inductive IpVersion
  | ipV4
  | ipV6
  deriving DecidableEq, Repr

/-- Embeds Expr of ptraf-filter frontend.rs.  The tree's frontend.rs stops at
And and Or; the Not node is modelled from the spec, since
src/ptraf-filter/src/interpretor.rs evaluates Expr::Not but the variant is
absent from the tree's frontend.rs. -/
inductive Expr
  | pid (n : Nat)
  | protocol (p : Protocol)
  | ipVersion (v : IpVersion)
  | addr (a : IpAddress)
  | localAddr (a : IpAddress)
  | remoteAddr (a : IpAddress)
  | port (n : Nat)
  | localPort (n : Nat)
  | remotePort (n : Nat)
  | and (a b : Expr)
  | or (a b : Expr)
  | not (a : Expr)
  deriving DecidableEq, Repr

/-- Atomic productions of the grammar (the operand rule of frontend.rs):
pid[n], udp, tcp, ipv4, ipv6, port[n], lport[n], rport[n], addr[ip],
laddr[ip], raddr[ip], already carrying their parsed payloads. -/
inductive Atom
  | pid (n : Nat)
  | udp
  | tcp
  | ipv4
  | ipv6
  | port (n : Nat)
  | lport (n : Nat)
  | rport (n : Nat)
  | addr (a : IpAddress)
  | laddr (a : IpAddress)
  | raddr (a : IpAddress)
  deriving DecidableEq, Repr

/-- Expression built by an atom's action in frontend.rs. -/
def atomExpr : Atom → Expr
  | .pid n => .pid n
  | .udp => .protocol .udp
  | .tcp => .protocol .tcp
  | .ipv4 => .ipVersion .ipV4
  | .ipv6 => .ipVersion .ipV6
  | .port n => .port n
  | .lport n => .localPort n
  | .rport n => .remotePort n
  | .addr a => .addr a
  | .laddr a => .localAddr a
  | .raddr a => .remoteAddr a

/-- Token alphabet of the logic tier of frontend.rs's grammar: operands
(whose own character-level rules are abstracted into Atom), the keywords and
parentheses.  Whitespace between tokens is insignificant in the grammar. -/
inductive Tok
  | atom (a : Atom)
  | kwAnd
  | kwOr
  | kwNot
  | lparen
  | rparen
  deriving DecidableEq, Repr

mutual

/-- Embeds the primary level of the rule logic() in frontend.rs, fuel-indexed
for totality: an operand, or a parenthesized logic expression.  The kwNot
alternative is modelled from the spec grammar's not production, since the tree's
frontend.rs grammar has no not rule although interpretor.rs evaluates
Expr::Not. -/
def parsePrimary : Nat → List Tok → Option (Expr × List Tok)
  | 0, _ => none
  | _ + 1, Tok.atom a :: rest => some (atomExpr a, rest)
  | fuel + 1, Tok.kwNot :: rest =>
    match parsePrimary fuel rest with
    | some (e, r) => some (Expr.not e, r)
    | none => none
  | fuel + 1, Tok.lparen :: rest =>
    match parseLogic fuel rest with
    | some (e, Tok.rparen :: r) => some (e, r)
    | _ => none
  | _ + 1, _ => none

/-- Embeds the single precedence tier of the rule logic() in frontend.rs: the
peg precedence! block places the or and and productions in the same tier,
both left-associative, so after a primary the loop folds (or|and) primary
pairs from the left. -/
def parseOps : Nat → Expr → List Tok → Option (Expr × List Tok)
  | 0, _, _ => none
  | fuel + 1, a, Tok.kwOr :: rest =>
    match parsePrimary fuel rest with
    | some (b, r) => parseOps fuel (Expr.or a b) r
    | none => some (a, Tok.kwOr :: rest)
  | fuel + 1, a, Tok.kwAnd :: rest =>
    match parsePrimary fuel rest with
    | some (b, r) => parseOps fuel (Expr.and a b) r
    | none => some (a, Tok.kwAnd :: rest)
  | _ + 1, a, rest => some (a, rest)

/-- Embeds the rule logic() in frontend.rs: a primary followed by the
left-associative (or|and) loop. -/
def parseLogic : Nat → List Tok → Option (Expr × List Tok)
  | 0, _ => none
  | fuel + 1, toks =>
    match parsePrimary fuel toks with
    | some (a, rest) => parseOps fuel a rest
    | none => none

end

/-- Embeds the public rule filter() of frontend.rs: parse a logic expression
consuming the entire input (the generated peg parser errors on trailing
input).  The fuel bound exceeds the recursion depth possible on the given
token list. -/
def filterRun (toks : List Tok) : Option Expr :=
  match parseLogic (2 * toks.length + 2) toks with
  | some (e, []) => some e
  | _ => none

/-- Embeds the attribute-bearing value the interpreter evaluates against (the
Filterable witness used by interpretor.rs's tests). -/
structure Packet where
  pid : Nat
  protocol : Protocol
  ip_version : IpVersion
  local_address : IpAddress
  remote_address : IpAddress
  local_port : Nat
  remote_port : Nat
  deriving DecidableEq, Repr

/-- Embeds Interpretor::eval of src/ptraf-filter/src/interpretor.rs (with its
and, or, not helpers inlined): Addr matches either endpoint, Port matches
either port, connectives are boolean. -/
def eval (f : Packet) : Expr → Bool
  | .pid n => decide (f.pid = n)
  | .protocol p => decide (f.protocol = p)
  | .ipVersion v => decide (f.ip_version = v)
  | .addr a => decide (f.local_address = a) || decide (f.remote_address = a)
  | .localAddr a => decide (f.local_address = a)
  | .remoteAddr a => decide (f.remote_address = a)
  | .port n => decide (f.local_port = n) || decide (f.remote_port = n)
  | .localPort n => decide (f.local_port = n)
  | .remotePort n => decide (f.remote_port = n)
  | .and a b => eval f a && eval f b
  | .or a b => eval f a || eval f b
  | .not a => !eval f a

/-! ### View-layer filter and socket-table collector
(src/ptraf/src/ui.rs, src/ptraf/src/ui/socktable.rs) -/

/-- Embeds the pre-filter Filter of src/ptraf/src/ui.rs (named UiFilter here
because Filter is taken by Mathlib): no filter, a process, or a remote ip. -/
inductive UiFilter
  | noFilter
  | process (pid : Nat)
  | remoteIp (ip : IpAddress)
  deriving DecidableEq, Repr

/-- Embeds Filter::interest of src/ptraf/src/ui.rs: None maps to
Interest::All, Process to Pid, RemoteIp to RemoteIp. -/
def UiFilter.interest : UiFilter → Interest
  | .noFilter => .all
  | .process p => .pid p
  | .remoteIp ip => .remoteIp ip

/-- Modelled from the spec: Socket::match_interest is called by
SocketTableCollector::collect but is absent from the tree's store.rs; per the
spec a socket is skipped when its tuple does not satisfy the pre-filter
Interest, and Interest::All admits every socket. -/
def Socket.match_interest (so : Socket) (i : Interest) : Bool :=
  match i with
  | .all => true
  | .pid p => decide (so.pid = p)
  | .remoteIp ip => decide (so.remote.ip = ip)
  | .remoteSocket a => decide (so.remote = a)
  | .localSocket a => decide (so.«local» = a)

/-- Embeds ClockNano::wall_time: the wall-clock origin plus the timestamp
(the checked_add saturation cannot trigger over naturals). -/
def wallTime (origin ts : Nat) : Nat := origin + ts

/-- Embeds SocketTableConfig: the pre-filter and the collection and rate
windows (durations in nanoseconds). -/
structure SocketTableConfig where
  filter : UiFilter
  collection_window : Nat
  rate_window : Nat
  deriving DecidableEq, Repr

/-- Embeds Entry of socktable.rs: one socket-table row. -/
structure Entry where
  socket : Socket
  stat : Stat
  last_activity : Nat
  rate_stat : Stat
  pid : Nat
  deriving DecidableEq, Repr

/-- Embeds SocketTableCollector: the pre-filter, the per-local-endpoint row
cache (a HashMap in the source, modelled as an association list with unique
keys), the two bookkeeping timestamps and the rate cutoff. -/
structure SocketTableCollector where
  filter : UiFilter
  socket_cache : List (SockAddr × Entry)
  oldest_segment_ts : Option Nat
  oldest_rate_segment_ts : Option Nat
  rate_until : Nat

/-- Embeds the HashMap entry API used by the collector: modify the entry in
place when the key is present, otherwise append the given fresh entry. -/
def cacheUpdate (cache : List (SockAddr × Entry)) (k : SockAddr)
    (modify : Entry → Entry) (fresh : Entry) : List (SockAddr × Entry) :=
  match cache with
  | [] => [(k, fresh)]
  | (k', e) :: rest =>
    if k' = k then (k', modify e) :: rest
    else (k', e) :: cacheUpdate rest k modify fresh

/-- Embeds the per-socket body of SocketTableCollector::collect: skip sockets
that fail the pre-filter, read the segment's LocalSocket stat (or a default),
then merge it into the row, the rate portion only for rate-eligible
segments; a fresh row carries the socket, the stat, the wall time of the
segment and the socket's pid. -/
def collectSocket (filt : UiFilter) (tseg : TimeSegment) (origin : Nat)
    (is_rate_eligible : Bool) (cache : List (SockAddr × Entry)) (so : Socket) :
    List (SockAddr × Entry) :=
  if !so.match_interest filt.interest then cache
  else
    let stat := (tseg.segment.stat_by_interest (.localSocket so.«local»)).getD default
    cacheUpdate cache so.«local»
      (fun e =>
        { e with
          stat := e.stat.merge stat,
          rate_stat := if is_rate_eligible then e.rate_stat.merge stat else e.rate_stat })
      ⟨so, stat, wallTime origin tseg.ts,
        if is_rate_eligible then stat else default, so.pid⟩

/-- Embeds SocketTableCollector::collect: replace the oldest visited key with
the segment's (and the oldest rate-eligible key when the segment is past the
cutoff), then fold the per-socket body over the segment's socket set. -/
def SocketTableCollector.collect (c : SocketTableCollector) (tseg : TimeSegment)
    (origin : Nat) : SocketTableCollector :=
  { filter := c.filter
    socket_cache :=
      tseg.segment.socks.foldl
        (fun cache so =>
          collectSocket c.filter tseg origin (decide (c.rate_until ≤ tseg.ts)) cache so)
        c.socket_cache
    oldest_segment_ts := some tseg.ts
    oldest_rate_segment_ts :=
      if decide (c.rate_until ≤ tseg.ts) then some tseg.ts else c.oldest_rate_segment_ts
    rate_until := c.rate_until }

/-- Embeds SocketTable of socktable.rs. -/
structure SocketTable where
  filter : UiFilter
  dataset : List Entry
  rate_collection_range : Option (Nat × Nat)
  config : SocketTableConfig
  deriving DecidableEq, Repr

/-- Embeds SocketTableConfig::build / SocketTable::new. -/
def SocketTableConfig.build (cfg : SocketTableConfig) : SocketTable :=
  ⟨cfg.filter, [], none, cfg⟩

/-- Segments visited by SocketTable::collect: newest first, while the
saturating distance from the truncated collection timestamp stays within the
collection window. -/
def visitedSegments (s : Store) (now cw : Nat) : List TimeSegment :=
  (s.segments.reverse).takeWhile fun tseg =>
    decide (saturatingElapsedSince tseg.ts now ≤ cw)

/-- Embeds SocketTable::collect: truncate the timestamp, compute the rate
cutoff max(ts - rate_window, window).trunc(window) with saturating
subtraction, walk the segment view newest-first within the collection
window, then store the rate range and the cache's rows as the dataset. -/
def SocketTable.collect (t : SocketTable) (ts : Nat) (origin : Nat) (store : Store) :
    SocketTable :=
  let window := store.window
  let ts1 := trunc ts window
  let rate_until := trunc (max (ts1 - t.config.rate_window) window) window
  let collector :=
    (visitedSegments store ts1 t.config.collection_window).foldl
      (fun c tseg => c.collect tseg origin)
      (⟨t.filter, [], none, none, rate_until⟩ : SocketTableCollector)
  { t with
    rate_collection_range := some (collector.oldest_rate_segment_ts.getD ts1, ts1),
    dataset := collector.socket_cache.map (·.2) }

/-! ### Traffic sparkline collector (src/ptraf/src/ui/traffic_sparkline.rs) -/

/-- Embeds DataPoint of traffic_sparkline.rs. -/
structure DataPoint where
  ts : Nat
  rx : Nat
  tx : Nat
  deriving DecidableEq, Repr

/-- Embeds TrafficSparkline: the optional interest restriction and the FIFO
of per-segment datapoints (the reverse buffer of the source is drained on
every collect and is modelled as a local). -/
structure TrafficSparkline where
  filter : UiFilter
  dataset : List DataPoint
  deriving DecidableEq, Repr

instance : Inhabited TrafficSparkline := ⟨⟨.noFilter, []⟩⟩

/-- Embeds TrafficSparkline::collect: remember the newest collected ts, drop
front datapoints older than the store's oldest segment, push datapoints for
segments strictly newer than the back (newest first) into the reverse
buffer, then append them in chronological order, skipping the newest segment
because it may still be receiving updates. -/
def TrafficSparkline.collect (t : TrafficSparkline) (store : Store) :
    TrafficSparkline :=
  let start := ((t.dataset.getLast?).map (·.ts)).getD 0
  let ds :=
    match store.segments.head? with
    | some oldest => t.dataset.dropWhile fun dp => decide (dp.ts < oldest.ts)
    | none => t.dataset
  let interest := t.filter.interest
  let reverse_buffer :=
    ((store.segments.reverse).takeWhile fun tseg => decide (start < tseg.ts)).map
      fun tseg =>
        let stat := tseg.segment.stat_by_interest interest
        (⟨tseg.ts, (stat.map (·.rx)).getD 0, (stat.map (·.tx)).getD 0⟩ : DataPoint)
  { t with dataset := ds ++ ((reverse_buffer.drop 1).reverse) }

/-! ### View layer (src/ptraf/src/ui.rs renders) -/

/-- Embeds the fields of UiContext consumed by the collecting renders: the
frame timestamp, the clock's wall origin, the store and the paused flag. -/
structure UiContext where
  ts : Nat
  clockOrigin : Nat
  store : Store
  paused : Bool

/-- Embeds SocketTableView: the socket table plus the tui selection state. -/
structure SocketTableView where
  socket_table : SocketTable
  table_state : Option Nat
  deriving DecidableEq, Repr

/-- Embeds the state effect of SocketTableView::render: the table re-collects
from the store only when the context is not paused; everything else the
render does is display-only. -/
def SocketTableView.render (v : SocketTableView) (ctx : UiContext) : SocketTableView :=
  if !ctx.paused then
    { v with socket_table := v.socket_table.collect ctx.ts ctx.clockOrigin ctx.store }
  else v

/-- Embeds TrafficSparklineView restricted to its collector state (the
interpolation buffers are display-only). -/
structure TrafficSparklineView where
  traffic : TrafficSparkline
  deriving DecidableEq, Repr

/-- Embeds the state effect of TrafficSparklineView::render: the sparkline
re-collects from the store unconditionally; the source's render does not
consult the paused flag. -/
def TrafficSparklineView.render (v : TrafficSparklineView) (ctx : UiContext) :
    TrafficSparklineView :=
  { v with traffic := v.traffic.collect ctx.store }

/-! ### Specification-side derived notions used by the theorems -/

/-- Key alignment: every segment key is a multiple of the window. -/
def Store.Aligned (s : Store) : Prop := ∀ k ∈ s.keys, s.window ∣ k

/-- Key arithmetic: consecutive segment keys differ by exactly the window. -/
def Store.ChainKeys (s : Store) : Prop :=
  s.keys.Chain' (fun a b => b = a + s.window)

/-- Combined store invariant: fixed window and capacity, arithmetic key
chain, aligned keys, and the length bound. -/
def Store.StoreInv (w c : Nat) (s : Store) : Prop :=
  s.window = w ∧ s.capacity = c ∧ s.ChainKeys ∧ s.Aligned ∧ s.segments.length ≤ c

/-- Componentwise sum of a list of stats (Stat::default is the identity of
Stat::merge). -/
def statSum (l : List Stat) : Stat := l.foldr Stat.merge default

/-- Total payload bytes of the batch's successful events on one channel. -/
def channelBytes (ch : Channel) (msgs : List SockMsgEvent) : Nat :=
  ((msgs.filter fun m => m.packet_size.isSome && decide (m.channel = ch)).map
    (fun m => m.ret.toNat)).sum

/-- Number of successful events of the batch on one channel. -/
def channelCount (ch : Channel) (msgs : List SockMsgEvent) : Nat :=
  (msgs.filter fun m => m.packet_size.isSome && decide (m.channel = ch)).length

/-- Whether a successful event touches the given interest key. -/
def touches (k : Interest) (m : SockMsgEvent) : Bool :=
  m.packet_size.isSome && decide (k ∈ Interest.interests_from_msg m)

/-- Stat contributed by one successful event: its payload bytes and one
packet on its channel. -/
def eventStat (m : SockMsgEvent) : Stat :=
  (default : Stat).increment m.channel m.ret.toNat 1

/-- Accumulated contribution of a batch to one interest key. -/
def keyContribution (k : Interest) (msgs : List SockMsgEvent) : Stat :=
  statSum ((msgs.filter (touches k)).map eventStat)

/-- Whether a socket with the given local endpoint that passes the pre-filter
appears in the segment's socket set. -/
def appearsIn (filt : UiFilter) (k : SockAddr) (tseg : TimeSegment) : Bool :=
  tseg.segment.socks.any fun so =>
    decide (so.«local» = k) && so.match_interest filt.interest

/-- Per-segment stat of a local endpoint as read by the socket-table
collector: the LocalSocket interest entry, or a default when absent. -/
def segContribution (k : SockAddr) (tseg : TimeSegment) : Stat :=
  (tseg.segment.stat_by_interest (.localSocket k)).getD default

/-- Whether a socket with the given local endpoint that passes the pre-filter
occurs in a list of sockets (the processed prefix of a segment's socket
set). -/
def doneApp (filt : UiFilter) (k : SockAddr) (done : List Socket) : Bool :=
  done.any fun so => decide (so.«local» = k) && so.match_interest filt.interest

/-- Invariant of the socket-table collector's cache after folding the listed
segments (newest first): keys are unique, each row's socket carries its key,
a key is cached exactly when it appeared under the pre-filter in a processed
segment, and each row's stat (and rate_stat) is the sum of the key's
per-segment LocalSocket stats over the processed segments in which it
appeared (respectively those also past the rate cutoff). -/
def CacheOK (filt : UiFilter) (cutoff : Nat) (procd : List TimeSegment)
    (cache : List (SockAddr × Entry)) : Prop :=
  (cache.map Prod.fst).Nodup
  ∧ (∀ p ∈ cache, (p.2).socket.«local» = p.1)
  ∧ (∀ k : SockAddr, procd.any (appearsIn filt k) = true ↔ k ∈ cache.map Prod.fst)
  ∧ (∀ p ∈ cache,
      (p.2).stat
        = statSum ((procd.filter (appearsIn filt p.1)).map (segContribution p.1))
      ∧ (p.2).rate_stat
        = statSum ((procd.filter fun tseg =>
            appearsIn filt p.1 tseg && decide (cutoff ≤ tseg.ts)).map
            (segContribution p.1)))

/-- Mid-segment refinement of CacheOK: the sockets of the current segment in
the processed prefix done already contribute the segment's stat. -/
def InnerOK (filt : UiFilter) (cutoff : Nat) (procd : List TimeSegment)
    (tseg : TimeSegment) (done : List Socket)
    (cache : List (SockAddr × Entry)) : Prop :=
  (cache.map Prod.fst).Nodup
  ∧ (∀ p ∈ cache, (p.2).socket.«local» = p.1)
  ∧ (∀ k : SockAddr,
      (procd.any (appearsIn filt k) || doneApp filt k done) = true
        ↔ k ∈ cache.map Prod.fst)
  ∧ (∀ p ∈ cache,
      (p.2).stat
        = (if doneApp filt p.1 done
          then (statSum ((procd.filter (appearsIn filt p.1)).map
              (segContribution p.1))).merge (segContribution p.1 tseg)
          else statSum ((procd.filter (appearsIn filt p.1)).map (segContribution p.1)))
      ∧ (p.2).rate_stat
        = (if doneApp filt p.1 done && decide (cutoff ≤ tseg.ts)
          then (statSum ((procd.filter fun t' =>
              appearsIn filt p.1 t' && decide (cutoff ≤ t'.ts)).map
              (segContribution p.1))).merge (segContribution p.1 tseg)
          else statSum ((procd.filter fun t' =>
              appearsIn filt p.1 t' && decide (cutoff ≤ t'.ts)).map
              (segContribution p.1))))

/-- Concrete sample event used by witnesses: a 10-byte Tx message from pid 1
on 33:31 to 32:80 (as in the store's unit tests). -/
def sampleMsg : SockMsgEvent :=
  ⟨.stream, .v4 33, .v4 32, 31, 80, 10, 1, .tx⟩

/-- Concrete sample event used by witnesses: an 11-byte Rx message on the
same socket. -/
def sampleMsgRx : SockMsgEvent :=
  ⟨.stream, .v4 33, .v4 32, 31, 80, 11, 1, .rx⟩

/-- Concrete sample event used by witnesses: a failed call (ret = -11,
EAGAIN) on the same socket. -/
def sampleMsgErr : SockMsgEvent :=
  ⟨.stream, .v4 33, .v4 32, 31, 80, -11, 1, .tx⟩

/-! ### Basic arithmetic facts about trunc -/

theorem trunc_eq_div_mul (ts w : Nat) : trunc ts w = ts / w * w := by
  have h : ts / w * w + ts % w = ts := Nat.div_add_mod' ts w
  unfold trunc
  omega

theorem window_dvd_trunc (ts w : Nat) : w ∣ trunc ts w := by
  rw [trunc_eq_div_mul]
  exact Dvd.intro _ (Nat.mul_comm _ _)

theorem trunc_le_self (ts w : Nat) : trunc ts w ≤ ts := Nat.sub_le _ _

/-! ### Claim C10: trunc totality, zero-window panic, unvalidated Store::new -/

/-- C10: for every timestamp and positive window, Timestamp::trunc returns
floor(ts/w)*w without panicking; with a zero window the modulo inside trunc
panics (division by zero); Store::new constructs a store for any window and
capacity without validating the documented preconditions, and batch_update on
a store built with a zero window panics on the ingest path. -/
theorem claim_c10 (ts w c : Nat) (msgs : List SockMsgEvent) :
    (0 < w → truncChecked ts w = some (ts / w * w))
    ∧ truncChecked ts 0 = none
    ∧ (Store.new w c).window = w
    ∧ (Store.new w c).capacity = c
    ∧ (Store.new w c).segments = []
    ∧ (Store.new 0 c).batchUpdateChecked ts msgs = none := by
  refine ⟨fun hw => ?_, ?_, rfl, rfl, rfl, ?_⟩
  · rw [truncChecked, if_neg (Nat.pos_iff_ne_zero.mp hw), trunc_eq_div_mul]
  · rfl
  · rfl

/-- Witness for C10 at ts = 250, w = 100, c = 16, an empty batch. -/
theorem claim_c10_witness :
    (0 < 100 → truncChecked 250 100 = some (250 / 100 * 100))
    ∧ truncChecked 250 0 = none
    ∧ (Store.new 100 16).window = 100
    ∧ (Store.new 100 16).capacity = 16
    ∧ (Store.new 100 16).segments = []
    ∧ (Store.new 0 16).batchUpdateChecked 250 [] = none :=
  claim_c10 250 100 16 []

/-! ### Claim C5: precedence of and versus or in the filter grammar -/

/-- C5 counterexample: mirroring the source's own test
tests::logical_operators, the input pid[3221] or tcp and ipv4 parses to
And(Or(pid, tcp), ipv4), not to Or(pid, And(tcp, ipv4)): the peg precedence
block of frontend.rs places or and and in the same tier, so and does not bind
tighter than or. -/
theorem claim_c5_counterexample :
    filterRun [.atom (.pid 3221), .kwOr, .atom .tcp, .kwAnd, .atom .ipv4]
      = some (.and (.or (.pid 3221) (.protocol .tcp)) (.ipVersion .ipV4))
    ∧ filterRun [.atom (.pid 3221), .kwOr, .atom .tcp, .kwAnd, .atom .ipv4]
      ≠ some (.or (.pid 3221) (.and (.protocol .tcp) (.ipVersion .ipV4))) := by
  constructor
  · rfl
  · decide

/-- C5 amended: and and or have equal precedence and are left-associative:
for all atoms a, b, c, the input a or b and c parses to And(Or(a, b), c) and
a and b or c parses to Or(And(a, b), c). -/
theorem claim_c5_amended (a b c : Atom) :
    filterRun [.atom a, .kwOr, .atom b, .kwAnd, .atom c]
      = some (.and (.or (atomExpr a) (atomExpr b)) (atomExpr c))
    ∧ filterRun [.atom a, .kwAnd, .atom b, .kwOr, .atom c]
      = some (.or (.and (atomExpr a) (atomExpr b)) (atomExpr c)) :=
  ⟨rfl, rfl⟩

/-! ### Claim C6: negation connective and de Morgan laws -/

/-- C6: the filter language has a negation connective: not followed by a term
parses to a Not node, Not evaluates to the boolean negation of its operand
(Interpretor::eval), and evaluation satisfies both de Morgan laws on every
attribute-bearing value. -/
theorem claim_c6 (f : Packet) (a b : Expr) (t : Atom) :
    filterRun [.kwNot, .atom t] = some (.not (atomExpr t))
    ∧ eval f (.not a) = !eval f a
    ∧ eval f (.not (.and a b)) = eval f (.or (.not a) (.not b))
    ∧ eval f (.not (.or a b)) = eval f (.and (.not a) (.not b)) := by
  refine ⟨rfl, rfl, ?_, ?_⟩
  · show (!(eval f a && eval f b)) = (!eval f a || !eval f b)
    cases eval f a <;> cases eval f b <;> rfl
  · show (!(eval f a || eval f b)) = (!eval f a && !eval f b)
    cases eval f a <;> cases eval f b <;> rfl

/-! ### Claim C9: paused renders and re-collection -/

/-- C9 counterexample: with the UI paused (ctx.paused = true), a render still
changes the traffic sparkline's dataset: TrafficSparklineView::render calls
TrafficSparkline::collect unconditionally, without consulting the paused
flag.  Here the store holds segments keyed 0, 100, 200 and the sparkline's
dataset grows from empty to one datapoint. -/
theorem claim_c9_counterexample :
    (TrafficSparklineView.render ⟨⟨.noFilter, []⟩⟩
        ⟨0, 0, ((Store.new 100 16).batch_update 0 []).batch_update 200 [], true⟩).traffic.dataset
      ≠ (⟨⟨.noFilter, []⟩⟩ : TrafficSparklineView).traffic.dataset := by
  decide

/-- C9 amended: while paused, a render leaves the socket-table view (hence
its dataset) unchanged — SocketTableView::render only re-collects when not
paused — but the traffic sparkline re-collects from the store on every
render regardless of the paused flag, so its dataset can change while
paused. -/
theorem claim_c9_amended (sv : SocketTableView) (tv : TrafficSparklineView)
    (ctx : UiContext) (hp : ctx.paused = true) :
    SocketTableView.render sv ctx = sv
    ∧ (TrafficSparklineView.render tv ctx).traffic = tv.traffic.collect ctx.store := by
  constructor
  · rw [SocketTableView.render, hp]
    rfl
  · rfl

/-- Witness for C9 amended on a concrete paused context. -/
theorem claim_c9_amended_witness :
    SocketTableView.render ⟨(SocketTableConfig.mk .noFilter 2000 300).build, none⟩
        ⟨0, 0, Store.new 100 16, true⟩
      = ⟨(SocketTableConfig.mk .noFilter 2000 300).build, none⟩
    ∧ (TrafficSparklineView.render ⟨⟨.noFilter, []⟩⟩ ⟨0, 0, Store.new 100 16, true⟩).traffic
      = (⟨.noFilter, []⟩ : TrafficSparkline).collect (Store.new 100 16) :=
  claim_c9_amended _ _ _ rfl

/-! ### Store invariants and the write-segment loop -/

theorem keys_pushEvict (s : Store) (key : Nat) :
    (s.pushEvict key).keys
      = (if s.capacity ≤ s.segments.length then s.keys.drop 1 else s.keys) ++ [key] := by
  unfold Store.pushEvict Store.keys
  split <;> simp [List.map_drop]

theorem window_pushEvict (s : Store) (key : Nat) : (s.pushEvict key).window = s.window := rfl

theorem capacity_pushEvict (s : Store) (key : Nat) :
    (s.pushEvict key).capacity = s.capacity := rfl

theorem lastTs_pushEvict (s : Store) (key : Nat) :
    (s.pushEvict key).lastTs = some key := by
  unfold Store.pushEvict Store.lastTs
  split <;> simp

theorem lastTs_eq_keys_getLast (s : Store) : s.lastTs = s.keys.getLast? := by
  unfold Store.lastTs Store.keys
  rw [List.getLast?_map]

theorem lastTs_mem_keys {s : Store} {b : Nat} (h : s.lastTs = some b) : b ∈ s.keys := by
  rw [lastTs_eq_keys_getLast] at h
  obtain ⟨hne, hb⟩ := List.mem_getLast?_eq_getLast h
  rw [hb]
  exact List.getLast_mem hne

theorem lastTs_none_iff (s : Store) : s.lastTs = none ↔ s.segments = [] := by
  unfold Store.lastTs
  cases h : s.segments.getLast? with
  | none => simp [List.getLast?_eq_none_iff.mp h]
  | some t =>
    simp only [Option.map_some']
    constructor
    · intro hs; exact absurd hs (by simp)
    · intro hs
      rw [hs] at h
      simp at h

theorem slowPath_window (fuel : Nat) : ∀ (s : Store) (key : Nat),
    (Store.slowPath fuel s key).window = s.window
    ∧ (Store.slowPath fuel s key).capacity = s.capacity := by
  induction fuel with
  | zero => intro s key; exact ⟨rfl, rfl⟩
  | succ n ih =>
    intro s key
    rw [Store.slowPath]
    cases h : s.lastTs with
    | some b =>
      show ((if key ≤ b then s
          else Store.slowPath n (s.pushEvict (b + s.window)) key)).window = s.window
        ∧ ((if key ≤ b then s
          else Store.slowPath n (s.pushEvict (b + s.window)) key)).capacity = s.capacity
      by_cases hk : key ≤ b
      · rw [if_pos hk]; exact ⟨rfl, rfl⟩
      · rw [if_neg hk]; exact ih _ _
    | none => exact ih _ _

/-- Exit on a stale key: when the back segment's key is at or past the
target, the loop returns the store unchanged. -/
theorem slowPath_stale {s : Store} {key b fuel : Nat} (hb : s.lastTs = some b)
    (hk : key ≤ b) (hf : 1 ≤ fuel) : Store.slowPath fuel s key = s := by
  obtain ⟨n, rfl⟩ : ∃ n, fuel = n + 1 := ⟨fuel - 1, by omega⟩
  rw [Store.slowPath, hb]
  show (if key ≤ b then s else _) = s
  rw [if_pos hk]

/-- On an empty store the loop performs exactly one append keyed at the
target and stops. -/
theorem slowPath_empty {s : Store} {fuel : Nat} (key : Nat) (hs : s.segments = [])
    (hf : 2 ≤ fuel) :
    Store.slowPath fuel s key = s.pushEvict key
    ∧ (s.pushEvict key).segments = [⟨key, default⟩] := by
  have hseg : (s.pushEvict key).segments = [⟨key, default⟩] := by
    unfold Store.pushEvict
    rw [hs]
    split <;> simp
  obtain ⟨n, rfl⟩ : ∃ n, fuel = n + 2 := ⟨fuel - 2, by omega⟩
  have h0 : s.lastTs = none := (lastTs_none_iff s).mpr hs
  have h1 : Store.slowPath (n + 2) s key
      = Store.slowPath (n + 1) (s.pushEvict key) key := by
    rw [Store.slowPath, h0]
  rw [h1]
  refine ⟨?_, hseg⟩
  exact slowPath_stale (lastTs_pushEvict s key) (Nat.le_refl key) (by omega)

/-- Exactness of the loop's exit key: starting from a store whose back key b
and target key are both multiples of the positive window, with enough fuel
the loop ends with back key max(key, b). -/
theorem slowPath_last : ∀ (fuel : Nat) (s : Store) (key b : Nat),
    0 < s.window → s.lastTs = some b → s.window ∣ b → s.window ∣ key →
    key ≤ b + fuel →
    (Store.slowPath fuel s key).lastTs = some (max key b) := by
  intro fuel
  induction fuel with
  | zero =>
    intro s key b hw hb hdb hdk hf
    rw [Store.slowPath, Nat.max_eq_right (by omega)]
    exact hb
  | succ n ih =>
    intro s key b hw hb hdb hdk hf
    rw [Store.slowPath, hb]
    by_cases hk : key ≤ b
    · show (if key ≤ b then s else _).lastTs = _
      rw [if_pos hk, Nat.max_eq_right hk]
      exact hb
    · show (if key ≤ b then s
          else Store.slowPath n (s.pushEvict (b + s.window)) key).lastTs = _
      rw [if_neg hk]
      have hw' : (s.pushEvict (b + s.window)).window = s.window := rfl
      have hlt : b < key := by omega
      have hstep : b + s.window ≤ key := by
        obtain ⟨d, hd⟩ := Nat.dvd_sub' hdk hdb
        have hdpos : 0 < d := by
          rcases Nat.eq_zero_or_pos d with h0 | h0
          · rw [h0, Nat.mul_zero] at hd; omega
          · exact h0
        have hle : s.window ≤ key - b := by
          calc s.window = s.window * 1 := by omega
          _ ≤ s.window * d := Nat.mul_le_mul_left _ hdpos
          _ = key - b := hd.symm
        omega
      have hres := ih (s.pushEvict (b + s.window)) key (b + s.window)
        (by rw [hw']; exact hw)
        (lastTs_pushEvict _ _)
        (by rw [hw']; exact dvd_add hdb (dvd_refl _))
        (by rw [hw']; exact hdk)
        (by omega)
      rw [hres, Nat.max_eq_left hstep, Nat.max_eq_left (by omega)]

/-- Keys are unchanged when the batch is written into the back segment. -/
theorem map_ts_writeBack (msgs : List SockMsgEvent) :
    ∀ l : List TimeSegment, (writeBack msgs l).map (·.ts) = l.map (·.ts) := by
  intro l
  induction l with
  | nil => rfl
  | cons t rest ih =>
    cases rest with
    | nil => rfl
    | cons u rest' =>
      show t.ts :: (writeBack msgs (u :: rest')).map (·.ts) = t.ts :: _
      rw [ih]

theorem keys_batch_update (s : Store) (ts : Nat) (msgs : List SockMsgEvent) :
    (s.batch_update ts msgs).keys = (s.write_segment ts).keys := by
  unfold Store.batch_update Store.keys
  exact map_ts_writeBack msgs _

theorem lastTs_batch_update (s : Store) (ts : Nat) (msgs : List SockMsgEvent) :
    (s.batch_update ts msgs).lastTs = (s.write_segment ts).lastTs := by
  rw [lastTs_eq_keys_getLast, lastTs_eq_keys_getLast, keys_batch_update]

theorem window_batch_update (s : Store) (ts : Nat) (msgs : List SockMsgEvent) :
    (s.batch_update ts msgs).window = s.window
    ∧ (s.batch_update ts msgs).capacity = s.capacity := by
  unfold Store.batch_update Store.write_segment Store.write_segment_key
  exact ⟨(slowPath_window _ _ _).1, (slowPath_window _ _ _).2⟩

/-! ### Claim C1: the newest key after batch_update -/

/-- C1 counterexample: on a store with window 100 already holding a segment
keyed 200, a batch_update at ts = 0 (which truncates to 0, older than the
newest key) leaves the newest key at 200, not at ts.trunc(window) = 0: the
write path's stale-key branch writes into the existing newest segment. -/
theorem claim_c1_counterexample :
    ((((Store.new 100 16).batch_update 200 []).batch_update 0 []).lastTs = some 200)
    ∧ (((Store.new 100 16).batch_update 200 []).batch_update 0 []).lastTs
      ≠ some (trunc 0 100) := by
  decide

/-- Shared form of the newest-key law: after batch_update(ts, _) on a store
with positive window and window-aligned keys, the newest key is the maximum
of ts.trunc(window) and the previous newest key. -/
theorem batch_update_lastTs_max (s : Store) (ts : Nat) (msgs : List SockMsgEvent)
    (hw : 0 < s.window) (ha : s.Aligned) :
    (s.batch_update ts msgs).lastTs
      = some (max (trunc ts s.window) ((s.lastTs).getD (trunc ts s.window))) := by
  rw [lastTs_batch_update]
  unfold Store.write_segment Store.write_segment_key
  cases hb : s.lastTs with
  | none =>
    have hs : s.segments = [] := (lastTs_none_iff s).mp hb
    have h := slowPath_empty (trunc ts s.window) hs
      (by omega : 2 ≤ trunc ts s.window + 2)
    rw [h.1]
    rw [lastTs_pushEvict]
    simp
  | some b =>
    have hdb : s.window ∣ b := ha b (lastTs_mem_keys hb)
    have h := slowPath_last (trunc ts s.window + 2) s (trunc ts s.window) b hw hb hdb
      (window_dvd_trunc ts s.window) (by omega)
    rw [h]
    simp

/-- C1 amended: after batch_update(ts, _) on a store with positive window and
window-aligned keys, the newest key equals max(ts.trunc(window), previous
newest key); in particular it equals ts.trunc(window) exactly when the store
was empty or its newest key was at most ts.trunc(window). -/
theorem claim_c1_amended (s : Store) (ts : Nat) (msgs : List SockMsgEvent)
    (hw : 0 < s.window) (ha : s.Aligned) :
    (s.batch_update ts msgs).lastTs
      = some (max (trunc ts s.window) ((s.lastTs).getD (trunc ts s.window))) :=
  batch_update_lastTs_max s ts msgs hw ha

/-- Witness for C1 amended: an empty store with window 100 updated at
ts = 250 ends with newest key 200. -/
theorem claim_c1_amended_witness :
    0 < (Store.new 100 16).window
    ∧ (Store.new 100 16).Aligned
    ∧ ((Store.new 100 16).batch_update 250 []).lastTs
      = some (max (trunc 250 100) (((Store.new 100 16).lastTs).getD (trunc 250 100))) := by
  refine ⟨by decide, ?_, ?_⟩
  · intro k hk
    simp [Store.new, Store.keys] at hk
  · exact claim_c1_amended (Store.new 100 16) 250 []
      (by decide)
      (fun k hk => by simp [Store.new, Store.keys] at hk)

/-! ### Claim C8: oldest_timestamp and trivial updates -/

/-- C8 counterexample: the guarantee cannot hold for every store state: on a
store with window 100 whose newest key is already 200, no timestamp passed to
batch_update can bring the newest key back down to now.trunc(window) = 0 for
now = 0; in particular the modelled oldest_timestamp(0) leaves the newest key
at 200. -/
theorem claim_c8_counterexample :
    ((((Store.new 100 16).batch_update 200 []).batch_update
        (((Store.new 100 16).batch_update 200 []).oldest_timestamp 0) []).lastTs
      = some 200)
    ∧ ((((Store.new 100 16).batch_update 200 []).batch_update
        (((Store.new 100 16).batch_update 200 []).oldest_timestamp 0) []).lastTs
      ≠ some (trunc 0 100)) := by
  decide

/-- C8 amended: for every store with positive window and aligned keys that is
empty or whose newest key is at most now.trunc(window) — which covers every
store whose prior ingest used timestamps at most now — a batch_update at
oldest_timestamp(now) with zero events leaves at least one segment and the
newest key equals now.trunc(window); with no prior ingest exactly one segment
exists afterwards. -/
theorem claim_c8_amended (s : Store) (now : Nat) (hw : 0 < s.window)
    (ha : s.Aligned)
    (hb : s.segments = [] ∨ ∃ b, s.lastTs = some b ∧ b ≤ trunc now s.window) :
    (s.batch_update (s.oldest_timestamp now) []).segments ≠ []
    ∧ (s.batch_update (s.oldest_timestamp now) []).lastTs
      = some (trunc now s.window)
    ∧ (s.segments = [] → (s.batch_update (s.oldest_timestamp now) []).segments.length = 1) := by
  have hkey : (s.batch_update (s.oldest_timestamp now) []).lastTs
      = some (trunc now s.window) := by
    rw [Store.oldest_timestamp]
    rw [batch_update_lastTs_max s now [] hw ha]
    rcases hb with hempty | ⟨b, hbs, hble⟩
    · rw [(lastTs_none_iff s).mpr hempty]
      simp
    · rw [hbs]
      simp [Nat.max_eq_left hble]
  refine ⟨?_, hkey, ?_⟩
  · intro hnil
    rw [lastTs_eq_keys_getLast] at hkey
    unfold Store.keys at hkey
    rw [hnil] at hkey
    simp at hkey
  · intro hempty
    unfold Store.batch_update Store.write_segment Store.write_segment_key
    rw [Store.oldest_timestamp]
    have h := slowPath_empty (trunc now s.window) hempty
      (by omega : 2 ≤ trunc now s.window + 2)
    rw [h.1]
    unfold Store.pushEvict
    rw [hempty]
    split <;> simp [writeBack]

/-- Witness for C8 amended: the empty store with window 100 at now = 250. -/
theorem claim_c8_amended_witness :
    ((Store.new 100 16).batch_update ((Store.new 100 16).oldest_timestamp 250) []).segments ≠ []
    ∧ ((Store.new 100 16).batch_update ((Store.new 100 16).oldest_timestamp 250) []).lastTs
      = some (trunc 250 100)
    ∧ ((Store.new 100 16).segments = [] →
        ((Store.new 100 16).batch_update ((Store.new 100 16).oldest_timestamp 250) []).segments.length = 1) :=
  claim_c8_amended (Store.new 100 16) 250 (by decide)
    (fun k hk => by simp [Store.new, Store.keys] at hk)
    (Or.inl rfl)

/-! ### Claim C2: chain, capacity and eviction-order invariants -/

theorem mem_of_getLast?_eq {α : Type} {l : List α} {b : α}
    (h : l.getLast? = some b) : b ∈ l := by
  obtain ⟨hne, hb⟩ := List.mem_getLast?_eq_getLast h
  rw [hb]
  exact List.getLast_mem hne

theorem getLast?_drop_one {α : Type} {l : List α} (h : l.drop 1 ≠ []) :
    (l.drop 1).getLast? = l.getLast? := by
  cases l with
  | nil => simp at h
  | cons a t =>
    cases t with
    | nil => simp at h
    | cons u t' => simp [List.getLast?_cons_cons]

theorem chainKeys_pairwise {s : Store} (hw : 0 < s.window) (hc : s.ChainKeys) :
    s.keys.Pairwise (· < ·) := by
  have h : s.keys.Chain' (· < ·) :=
    List.Chain'.imp (fun a b hab => by omega) hc
  exact List.chain'_iff_pairwise.mp h

theorem pairwise_getLast_max {l : List Nat} {b : Nat}
    (hp : l.Pairwise (· < ·)) (hb : l.getLast? = some b) : ∀ y ∈ l, y ≤ b := by
  induction l with
  | nil => intro y hy; simp at hy
  | cons a t ih =>
    cases t with
    | nil =>
      intro y hy
      simp only [List.getLast?_singleton, Option.some.injEq] at hb
      simp only [List.mem_singleton] at hy
      omega
    | cons u t' =>
      rw [List.getLast?_cons_cons] at hb
      have hbt : b ∈ u :: t' := mem_of_getLast?_eq hb
      rw [List.pairwise_cons] at hp
      intro y hy
      rcases List.mem_cons.mp hy with rfl | hyt
      · exact Nat.le_of_lt (hp.1 b hbt)
      · exact ih hp.2 hb y hyt

/-- The head of a list is the only member missing from its one-step drop. -/
theorem head_of_mem_not_mem_drop {l : List Nat} {k : Nat}
    (hk : k ∈ l) (hnk : k ∉ l.drop 1) : ∃ t, l = k :: t := by
  cases l with
  | nil => simp at hk
  | cons a t =>
    rcases List.mem_cons.mp hk with rfl | hkt
    · exact ⟨t, rfl⟩
    · exact absurd hkt (by simpa using hnk)

theorem keys_nonempty_iff (s : Store) : s.keys ≠ [] ↔ s.segments ≠ [] := by
  unfold Store.keys
  simp

/-- Chain preservation for the continuing append: a segment keyed one window
past the back key extends the arithmetic chain, also after evicting the
oldest. -/
theorem chain_pushEvict_cont {s : Store} {b : Nat} (hc : s.ChainKeys)
    (hb : s.lastTs = some b) : (s.pushEvict (b + s.window)).ChainKeys := by
  unfold Store.ChainKeys at hc ⊢
  rw [keys_pushEvict, window_pushEvict]
  rw [lastTs_eq_keys_getLast] at hb
  set pre := if s.capacity ≤ s.segments.length then s.keys.drop 1 else s.keys with hpre
  have hchain : pre.Chain' (fun a c => c = a + s.window) := by
    rw [hpre]
    split
    · rw [List.drop_one]
      exact hc.tail
    · exact hc
  rw [List.chain'_append]
  refine ⟨hchain, List.chain'_singleton _, ?_⟩
  intro x hx y hy
  simp only [List.head?_cons, Option.mem_def, Option.some.injEq] at hy
  subst hy
  have hxlast : pre.getLast? = some x := hx
  have hxb : x = b := by
    rw [hpre] at hxlast
    by_cases hcap : s.capacity ≤ s.segments.length
    · rw [if_pos hcap] at hxlast
      have hne : s.keys.drop 1 ≠ [] := by
        intro hnil
        rw [hnil] at hxlast
        simp at hxlast
      rw [getLast?_drop_one hne, hb] at hxlast
      exact (Option.some.inj hxlast).symm
    · rw [if_neg hcap, hb] at hxlast
      exact (Option.some.inj hxlast).symm
  rw [hxb]

theorem chain_pushEvict_empty {s : Store} (hs : s.segments = []) (key : Nat) :
    (s.pushEvict key).ChainKeys := by
  unfold Store.ChainKeys
  rw [keys_pushEvict]
  have hk : s.keys = [] := by unfold Store.keys; rw [hs]; rfl
  rw [hk]
  simp

theorem aligned_pushEvict {s : Store} {key : Nat} (ha : s.Aligned)
    (hk : s.window ∣ key) : (s.pushEvict key).Aligned := by
  unfold Store.Aligned at ha ⊢
  rw [keys_pushEvict, window_pushEvict]
  intro x hx
  rcases List.mem_append.mp hx with hx1 | hx2
  · refine ha x ?_
    revert hx1
    split
    · exact fun h => List.mem_of_mem_drop h
    · exact fun h => h
  · rw [List.mem_singleton.mp hx2]
    exact hk

theorem length_pushEvict {s : Store} {key : Nat} (hcap : 1 ≤ s.capacity)
    (hl : s.segments.length ≤ s.capacity) :
    (s.pushEvict key).segments.length ≤ s.capacity := by
  unfold Store.pushEvict
  by_cases h : s.capacity ≤ s.segments.length
  · simp only [if_pos h, List.length_append, List.length_drop, List.length_singleton]
    omega
  · simp only [if_neg h, List.length_append, List.length_singleton]
    omega

/-- The write-segment loop preserves the chain, alignment and capacity
invariants for any fuel. -/
theorem slowPath_inv : ∀ (fuel : Nat) (s : Store) (key : Nat),
    0 < s.window → 1 ≤ s.capacity → s.window ∣ key →
    s.ChainKeys → s.Aligned → s.segments.length ≤ s.capacity →
    (Store.slowPath fuel s key).ChainKeys
    ∧ (Store.slowPath fuel s key).Aligned
    ∧ (Store.slowPath fuel s key).segments.length ≤ s.capacity := by
  intro fuel
  induction fuel with
  | zero =>
    intro s key _ _ _ hc ha hl
    exact ⟨hc, ha, hl⟩
  | succ n ih =>
    intro s key hw hcap hdk hc ha hl
    rw [Store.slowPath]
    cases hb : s.lastTs with
    | some b =>
      show (if key ≤ b then s else Store.slowPath n (s.pushEvict (b + s.window)) key).ChainKeys
        ∧ (if key ≤ b then s else Store.slowPath n (s.pushEvict (b + s.window)) key).Aligned
        ∧ (if key ≤ b then s
            else Store.slowPath n (s.pushEvict (b + s.window)) key).segments.length ≤ s.capacity
      by_cases hk : key ≤ b
      · rw [if_pos hk]; exact ⟨hc, ha, hl⟩
      · rw [if_neg hk]
        have hdb : s.window ∣ b := ha b (lastTs_mem_keys hb)
        exact ih (s.pushEvict (b + s.window)) key hw hcap hdk
          (chain_pushEvict_cont hc hb)
          (aligned_pushEvict ha (dvd_add hdb (dvd_refl _)))
          (length_pushEvict hcap hl)
    | none =>
      have hs : s.segments = [] := (lastTs_none_iff s).mp hb
      exact ih (s.pushEvict key) key hw hcap hdk
        (chain_pushEvict_empty hs key)
        (aligned_pushEvict ha hdk)
        (length_pushEvict hcap hl)

/-- Lower-bound law for the loop's result keys: every key of the result is an
original key or exceeds every original key. -/
theorem slowPath_lower : ∀ (fuel : Nat) (s : Store) (key x : Nat),
    0 < s.window → s.ChainKeys →
    x ∈ (Store.slowPath fuel s key).keys →
    x ∈ s.keys ∨ (∀ y ∈ s.keys, y < x) := by
  intro fuel
  induction fuel with
  | zero =>
    intro s key x _ _ hx
    exact Or.inl hx
  | succ n ih =>
    intro s key x hw hc hx
    rw [Store.slowPath] at hx
    cases hb : s.lastTs with
    | some b =>
      rw [hb] at hx
      by_cases hk : key ≤ b
      · rw [show (match some b with
            | some back =>
              if key ≤ back then s else Store.slowPath n (s.pushEvict (back + s.window)) key
            | none => Store.slowPath n (s.pushEvict key) key) = (if key ≤ b then s
              else Store.slowPath n (s.pushEvict (b + s.window)) key) from rfl,
          if_pos hk] at hx
        exact Or.inl hx
      · rw [show (match some b with
            | some back =>
              if key ≤ back then s else Store.slowPath n (s.pushEvict (back + s.window)) key
            | none => Store.slowPath n (s.pushEvict key) key) = (if key ≤ b then s
              else Store.slowPath n (s.pushEvict (b + s.window)) key) from rfl,
          if_neg hk] at hx
        have hres := ih (s.pushEvict (b + s.window)) key x hw (chain_pushEvict_cont hc hb) hx
        have hmax : ∀ y ∈ s.keys, y ≤ b :=
          pairwise_getLast_max (chainKeys_pairwise hw hc) (lastTs_eq_keys_getLast s ▸ hb)
        rcases hres with hx1 | hx2
        · rw [keys_pushEvict] at hx1
          rcases List.mem_append.mp hx1 with hpre | hnew
          · left
            revert hpre
            split
            · exact fun h => List.mem_of_mem_drop h
            · exact fun h => h
          · right
            rw [List.mem_singleton.mp hnew]
            intro y hy
            have := hmax y hy
            omega
        · right
          intro y hy
          have hbw : b + s.window ∈ (s.pushEvict (b + s.window)).keys := by
            rw [keys_pushEvict]
            exact List.mem_append.mpr (Or.inr (List.mem_singleton.mpr rfl))
          have h1 := hx2 (b + s.window) hbw
          have h2 := hmax y hy
          omega
    | none =>
      right
      intro y hy
      have hs : s.segments = [] := (lastTs_none_iff s).mp hb
      unfold Store.keys at hy
      rw [hs] at hy
      simp at hy

/-- Eviction order: a key evicted by the loop is below every key of the
result, so the oldest segments are evicted first. -/
theorem slowPath_evict : ∀ (fuel : Nat) (s : Store) (key k : Nat),
    0 < s.window → s.ChainKeys →
    k ∈ s.keys → k ∉ (Store.slowPath fuel s key).keys →
    ∀ k' ∈ (Store.slowPath fuel s key).keys, k < k' := by
  intro fuel
  induction fuel with
  | zero =>
    intro s key k _ _ hk hnk
    exact absurd hk hnk
  | succ n ih =>
    intro s key k hw hc hk hnk k' hk'
    rw [Store.slowPath] at hnk hk'
    cases hb : s.lastTs with
    | some b =>
      rw [hb] at hnk hk'
      by_cases hkle : key ≤ b
      · rw [show (match some b with
            | some back =>
              if key ≤ back then s else Store.slowPath n (s.pushEvict (back + s.window)) key
            | none => Store.slowPath n (s.pushEvict key) key) = (if key ≤ b then s
              else Store.slowPath n (s.pushEvict (b + s.window)) key) from rfl,
          if_pos hkle] at hnk
        exact absurd hk hnk
      · rw [show (match some b with
            | some back =>
              if key ≤ back then s else Store.slowPath n (s.pushEvict (back + s.window)) key
            | none => Store.slowPath n (s.pushEvict key) key) = (if key ≤ b then s
              else Store.slowPath n (s.pushEvict (b + s.window)) key) from rfl,
          if_neg hkle] at hnk hk'
        have hchain1 := chain_pushEvict_cont hc hb
        have hmax : ∀ y ∈ s.keys, y ≤ b :=
          pairwise_getLast_max (chainKeys_pairwise hw hc) (lastTs_eq_keys_getLast s ▸ hb)
        by_cases hks : k ∈ (s.pushEvict (b + s.window)).keys
        · exact ih (s.pushEvict (b + s.window)) key k hw hchain1 hks hnk k' hk'
        · have hdropped : ∀ y ∈ (s.pushEvict (b + s.window)).keys, k < y := by
            rw [keys_pushEvict] at hks ⊢
            by_cases hcap : s.capacity ≤ s.segments.length
            · rw [if_pos hcap] at hks ⊢
              have hknd : k ∉ s.keys.drop 1 := fun hmem =>
                hks (List.mem_append.mpr (Or.inl hmem))
              obtain ⟨t, ht⟩ := head_of_mem_not_mem_drop hk hknd
              intro y hy
              rcases List.mem_append.mp hy with hy1 | hy2
              · have hpw := chainKeys_pairwise hw hc
                rw [ht, List.pairwise_cons] at hpw
                rw [ht] at hy1
                simp only [List.drop_succ_cons, List.drop_zero] at hy1
                exact hpw.1 y hy1
              · rw [List.mem_singleton.mp hy2]
                have := hmax k hk
                omega
            · rw [if_neg hcap] at hks
              exact absurd (List.mem_append.mpr (Or.inl hk)) hks
          rcases slowPath_lower n (s.pushEvict (b + s.window)) key k' hw hchain1 hk'
            with hk1 | hk2
          · exact hdropped k' hk1
          · have hbw : b + s.window ∈ (s.pushEvict (b + s.window)).keys := by
              rw [keys_pushEvict]
              exact List.mem_append.mpr (Or.inr (List.mem_singleton.mpr rfl))
            have h1 := hdropped (b + s.window) hbw
            have h2 := hk2 (b + s.window) hbw
            omega
    | none =>
      have hs : s.segments = [] := (lastTs_none_iff s).mp hb
      unfold Store.keys at hk
      rw [hs] at hk
      simp at hk

theorem length_writeBack (msgs : List SockMsgEvent) :
    ∀ l : List TimeSegment, (writeBack msgs l).length = l.length := by
  intro l
  induction l with
  | nil => rfl
  | cons t rest ih =>
    cases rest with
    | nil => rfl
    | cons u rest' =>
      show ((writeBack msgs (u :: rest')).length + 1) = _
      rw [ih]
      rfl

theorem batch_update_StoreInv {w c : Nat} {s : Store} (ts : Nat)
    (msgs : List SockMsgEvent) (hw : 0 < w) (hc : 1 ≤ c)
    (hinv : s.StoreInv w c) : (s.batch_update ts msgs).StoreInv w c := by
  obtain ⟨hws, hcs, hchain, halign, hlen⟩ := hinv
  have hkeys : (s.batch_update ts msgs).keys = (s.write_segment ts).keys :=
    keys_batch_update s ts msgs
  have hwin : (s.batch_update ts msgs).window = s.window := (window_batch_update s ts msgs).1
  have hcap : (s.batch_update ts msgs).capacity = s.capacity := (window_batch_update s ts msgs).2
  have hwin2 : (s.write_segment ts).window = s.window := by
    unfold Store.write_segment Store.write_segment_key
    exact (slowPath_window _ _ _).1
  have hsp := slowPath_inv (trunc ts s.window + 2) s (trunc ts s.window)
    (hws ▸ hw) (hcs ▸ hc) (window_dvd_trunc ts s.window) hchain halign (hcs ▸ hlen)
  refine ⟨hwin.trans hws, hcap.trans hcs, ?_, ?_, ?_⟩
  · have h1 := hsp.1
    unfold Store.ChainKeys at h1
    rw [show (Store.slowPath (trunc ts s.window + 2) s (trunc ts s.window)).window
        = s.window from (slowPath_window _ _ _).1] at h1
    unfold Store.ChainKeys
    rw [hkeys, hwin]
    exact h1
  · unfold Store.Aligned
    rw [hkeys, hwin]
    intro k hk
    have := hsp.2.1
    unfold Store.Aligned at this
    unfold Store.write_segment Store.write_segment_key at hk
    have h2 := this k hk
    rw [show (Store.slowPath (trunc ts s.window + 2) s (trunc ts s.window)).window
        = s.window from (slowPath_window _ _ _).1] at h2
    exact h2
  · have hlen2 : (s.batch_update ts msgs).segments.length
        = (s.write_segment ts).segments.length := by
      unfold Store.batch_update
      exact length_writeBack msgs _
    rw [hlen2]
    unfold Store.write_segment Store.write_segment_key
    exact hcs ▸ hsp.2.2

theorem applyCalls_StoreInv {w c : Nat} (hw : 0 < w) (hc : 1 ≤ c) :
    ∀ (calls : List (Nat × List SockMsgEvent)) (s : Store),
    s.StoreInv w c → (Store.applyCalls s calls).StoreInv w c := by
  intro calls
  induction calls with
  | nil => intro s hinv; exact hinv
  | cons p rest ih =>
    intro s hinv
    exact ih _ (batch_update_StoreInv p.1 p.2 hw hc hinv)

theorem new_StoreInv (w c : Nat) : (Store.new w c).StoreInv w c := by
  refine ⟨rfl, rfl, ?_, ?_, ?_⟩
  · unfold Store.ChainKeys Store.keys Store.new
    simp
  · intro k hk
    unfold Store.new Store.keys at hk
    simp at hk
  · unfold Store.new
    simp

/-- C2: starting from Store::new(window, capacity) with window > 0 and
capacity >= 1, after any sequence of batch_update calls the segment keys form
an arithmetic chain with step window (silent windows were gap-filled), the
segment count never exceeds capacity, and on the next batch_update any key
that is evicted is smaller than every key that remains — the oldest segments
are evicted first. -/
theorem claim_c2 (w c : Nat) (calls : List (Nat × List SockMsgEvent))
    (ts : Nat) (msgs : List SockMsgEvent) (hw : 0 < w) (hc : 1 ≤ c) :
    (Store.applyCalls (Store.new w c) calls).ChainKeys
    ∧ (Store.applyCalls (Store.new w c) calls).segments.length ≤ c
    ∧ (∀ k, k ∈ (Store.applyCalls (Store.new w c) calls).keys →
        k ∉ ((Store.applyCalls (Store.new w c) calls).batch_update ts msgs).keys →
        ∀ k', k' ∈ ((Store.applyCalls (Store.new w c) calls).batch_update ts msgs).keys →
          k < k') := by
  have hinv := applyCalls_StoreInv hw hc calls (Store.new w c) (new_StoreInv w c)
  obtain ⟨hws, hcs, hchain, halign, hlen⟩ := hinv
  refine ⟨hchain, hlen, ?_⟩
  intro k hk hnk k' hk'
  rw [keys_batch_update] at hnk hk'
  unfold Store.write_segment Store.write_segment_key at hnk hk'
  refine slowPath_evict _ _ _ k ?_ hchain hk hnk k' hk'
  rw [hws]
  exact hw

/-- Witness for C2: window 10, capacity 3, four one-event calls at
0, 10, 20, 30 ms followed by a probe call at 40 ms. -/
theorem claim_c2_witness :
    (Store.applyCalls (Store.new 10 3) [(0, []), (10, []), (20, []), (30, [])]).ChainKeys
    ∧ (Store.applyCalls (Store.new 10 3)
        [(0, []), (10, []), (20, []), (30, [])]).segments.length ≤ 3
    ∧ (∀ k, k ∈ (Store.applyCalls (Store.new 10 3) [(0, []), (10, []), (20, []), (30, [])]).keys →
        k ∉ ((Store.applyCalls (Store.new 10 3)
            [(0, []), (10, []), (20, []), (30, [])]).batch_update 40 []).keys →
        ∀ k', k' ∈ ((Store.applyCalls (Store.new 10 3)
            [(0, []), (10, []), (20, []), (30, [])]).batch_update 40 []).keys →
          k < k') :=
  claim_c2 10 3 [(0, []), (10, []), (20, []), (30, [])] 40 [] (by decide) (by decide)

/-! ### Stat algebra -/

theorem Stat.merge_default (a : Stat) : a.merge default = a := by
  simp [Stat.merge, default]

theorem Stat.default_merge (a : Stat) : Stat.merge default a = a := by
  simp [Stat.merge, default]

theorem Stat.merge_assoc (a b c : Stat) :
    (a.merge b).merge c = a.merge (b.merge c) := by
  simp [Stat.merge]
  omega

theorem statSum_cons (x : Stat) (l : List Stat) :
    statSum (x :: l) = x.merge (statSum l) := rfl

theorem statSum_concat (l : List Stat) (x : Stat) :
    statSum (l ++ [x]) = (statSum l).merge x := by
  induction l with
  | nil =>
    show statSum [x] = Stat.merge default x
    rw [Stat.default_merge]
    show x.merge (statSum []) = x
    show x.merge default = x
    exact Stat.merge_default x
  | cons a t ih =>
    show a.merge (statSum (t ++ [x])) = (a.merge (statSum t)).merge x
    rw [ih, Stat.merge_assoc]

/-! ### Claim C3: negative ret events are skipped, successful events count -/

theorem step_skip {acc : BatchAcc} {m : SockMsgEvent}
    (h : m.packet_size = none) : BatchAcc.step acc m = acc := by
  unfold BatchAcc.step
  rw [h]

theorem foldl_step_filter : ∀ (msgs : List SockMsgEvent) (acc : BatchAcc),
    msgs.foldl BatchAcc.step acc
      = (msgs.filter fun m => m.packet_size.isSome).foldl BatchAcc.step acc := by
  intro msgs
  induction msgs with
  | nil => intro acc; rfl
  | cons m t ih =>
    intro acc
    cases h : m.packet_size with
    | none =>
      rw [List.foldl_cons, step_skip h, List.filter_cons,
        if_neg (by rw [h]; simp)]
      exact ih acc
    | some len =>
      rw [List.foldl_cons, List.filter_cons, if_pos (by rw [h]; simp),
        List.foldl_cons]
      exact ih _

theorem channelBytes_cons (ch : Channel) (m : SockMsgEvent) (t : List SockMsgEvent) :
    channelBytes ch (m :: t)
      = if m.packet_size.isSome && decide (m.channel = ch)
        then m.ret.toNat + channelBytes ch t else channelBytes ch t := by
  unfold channelBytes
  rw [List.filter_cons]
  split <;> simp_all

theorem channelCount_cons (ch : Channel) (m : SockMsgEvent) (t : List SockMsgEvent) :
    channelCount ch (m :: t)
      = if m.packet_size.isSome && decide (m.channel = ch)
        then 1 + channelCount ch t else channelCount ch t := by
  unfold channelCount
  rw [List.filter_cons]
  split <;> simp_all [Nat.add_comm]

theorem step_tallies (acc : BatchAcc) (m : SockMsgEvent) :
    (BatchAcc.step acc m).tx
        = (if m.packet_size.isSome && decide (m.channel = .tx)
            then acc.tx + m.ret.toNat else acc.tx)
    ∧ (BatchAcc.step acc m).tx_n
        = (if m.packet_size.isSome && decide (m.channel = .tx)
            then acc.tx_n + 1 else acc.tx_n)
    ∧ (BatchAcc.step acc m).rx
        = (if m.packet_size.isSome && decide (m.channel = .rx)
            then acc.rx + m.ret.toNat else acc.rx)
    ∧ (BatchAcc.step acc m).rx_n
        = (if m.packet_size.isSome && decide (m.channel = .rx)
            then acc.rx_n + 1 else acc.rx_n) := by
  by_cases h0 : 0 ≤ m.ret
  · have hps : m.packet_size = some m.ret.toNat := by
      unfold SockMsgEvent.packet_size
      rw [if_pos h0]
    cases hch : m.channel <;>
      simp [BatchAcc.step, hps, hch]
  · have hps : m.packet_size = none := by
      unfold SockMsgEvent.packet_size
      rw [if_neg h0]
    rw [step_skip hps]
    simp [hps]

theorem foldl_step_tallies : ∀ (msgs : List SockMsgEvent) (acc : BatchAcc),
    (msgs.foldl BatchAcc.step acc).tx = acc.tx + channelBytes .tx msgs
    ∧ (msgs.foldl BatchAcc.step acc).tx_n = acc.tx_n + channelCount .tx msgs
    ∧ (msgs.foldl BatchAcc.step acc).rx = acc.rx + channelBytes .rx msgs
    ∧ (msgs.foldl BatchAcc.step acc).rx_n = acc.rx_n + channelCount .rx msgs := by
  intro msgs
  induction msgs with
  | nil =>
    intro acc
    simp [channelBytes, channelCount]
  | cons m t ih =>
    intro acc
    rw [List.foldl_cons]
    obtain ⟨htx, htxn, hrx, hrxn⟩ := ih (BatchAcc.step acc m)
    obtain ⟨stx, stxn, srx, srxn⟩ := step_tallies acc m
    rw [channelBytes_cons, channelCount_cons, channelBytes_cons, channelCount_cons]
    refine ⟨?_, ?_, ?_, ?_⟩
    · rw [htx, stx]; split <;> omega
    · rw [htxn, stxn]; split <;> omega
    · rw [hrx, srx]; split <;> omega
    · rw [hrxn, srxn]; split <;> omega

/-- C3: Segment::batch_update skips every event with negative ret entirely —
updating with the batch equals updating with the batch restricted to events
whose packet_size is defined, so such events register no socket, touch no
interest key and add nothing to the totals — while every event with
ret >= 0 adds its ret bytes and one packet to its channel's total. -/
theorem claim_c3 (seg : Segment) (msgs : List SockMsgEvent) :
    seg.batch_update msgs = seg.batch_update (msgs.filter fun m => m.packet_size.isSome)
    ∧ (seg.batch_update msgs).total.tx = seg.total.tx + channelBytes .tx msgs
    ∧ (seg.batch_update msgs).total.tx_packet_count
      = seg.total.tx_packet_count + channelCount .tx msgs
    ∧ (seg.batch_update msgs).total.rx = seg.total.rx + channelBytes .rx msgs
    ∧ (seg.batch_update msgs).total.rx_packet_count
      = seg.total.rx_packet_count + channelCount .rx msgs := by
  obtain ⟨htx, htxn, hrx, hrxn⟩ :=
    foldl_step_tallies msgs ⟨seg.index, seg.socks, 0, 0, 0, 0⟩
  have htx' : (msgs.foldl BatchAcc.step ⟨seg.index, seg.socks, 0, 0, 0, 0⟩).tx
      = 0 + channelBytes .tx msgs := htx
  have htxn' : (msgs.foldl BatchAcc.step ⟨seg.index, seg.socks, 0, 0, 0, 0⟩).tx_n
      = 0 + channelCount .tx msgs := htxn
  have hrx' : (msgs.foldl BatchAcc.step ⟨seg.index, seg.socks, 0, 0, 0, 0⟩).rx
      = 0 + channelBytes .rx msgs := hrx
  have hrxn' : (msgs.foldl BatchAcc.step ⟨seg.index, seg.socks, 0, 0, 0, 0⟩).rx_n
      = 0 + channelCount .rx msgs := hrxn
  have hflt := foldl_step_filter msgs ⟨seg.index, seg.socks, 0, 0, 0, 0⟩
  refine ⟨?_, ?_, ?_, ?_, ?_⟩
  · unfold Segment.batch_update
    rw [hflt]
  · simp only [Segment.batch_update, Stat.increment]
    rw [htx']
    omega
  · simp only [Segment.batch_update, Stat.increment]
    rw [htxn']
    omega
  · simp only [Segment.batch_update, Stat.increment]
    rw [hrx']
    omega
  · simp only [Segment.batch_update, Stat.increment]
    rw [hrxn']
    omega

/-! ### Claim C4: stat_by_interest -/

theorem interests_nodup (m : SockMsgEvent) :
    (Interest.interests_from_msg m).Nodup := by
  unfold Interest.interests_from_msg
  simp

theorem foldl_indexIncrement_eval :
    ∀ (ks : List Interest), ks.Nodup →
    ∀ (idx : Interest → Option Stat) (ch : Channel) (len : Nat) (k : Interest),
    (ks.foldl (fun i k' => indexIncrement i k' ch len) idx) k
      = if k ∈ ks then some (((idx k).getD default).increment ch len 1) else idx k := by
  intro ks
  induction ks with
  | nil =>
    intro _ idx ch len k
    simp
  | cons k1 kt ih =>
    intro hnd idx ch len k
    rw [List.nodup_cons] at hnd
    rw [List.foldl_cons]
    rw [ih hnd.2]
    by_cases hk : k ∈ kt
    · rw [if_pos hk, if_pos (List.mem_cons.mpr (Or.inr hk))]
      have hne : k ≠ k1 := fun h => hnd.1 (h ▸ hk)
      rw [indexIncrement, if_neg hne]
    · rw [if_neg hk]
      by_cases hk1 : k = k1
      · rw [if_pos (List.mem_cons.mpr (Or.inl hk1)), indexIncrement, if_pos hk1, hk1]
      · rw [indexIncrement, if_neg hk1,
          if_neg (fun h => by rcases List.mem_cons.mp h with h1 | h2; exact hk1 h1; exact hk h2)]

theorem increment_eq_merge_eventStat (x : Stat) (m : SockMsgEvent) :
    x.increment m.channel m.ret.toNat 1 = x.merge (eventStat m) := by
  cases hch : m.channel <;>
    simp [Stat.increment, Stat.merge, eventStat, hch, default]

theorem step_index (acc : BatchAcc) (m : SockMsgEvent) (k : Interest) :
    (BatchAcc.step acc m).index k
      = if touches k m
        then some (((acc.index k).getD default).merge (eventStat m))
        else acc.index k := by
  by_cases h0 : 0 ≤ m.ret
  · have hps : m.packet_size = some m.ret.toNat := by
      unfold SockMsgEvent.packet_size
      rw [if_pos h0]
    have hstep : (BatchAcc.step acc m).index
        = (Interest.interests_from_msg m).foldl
            (fun idx k' => indexIncrement idx k' m.channel m.ret.toNat) acc.index := by
      unfold BatchAcc.step
      rw [hps]
      cases m.channel <;> rfl
    rw [hstep, foldl_indexIncrement_eval _ (interests_nodup m) _ _ _ k]
    unfold touches
    rw [hps]
    by_cases hmem : k ∈ Interest.interests_from_msg m
    · rw [if_pos hmem, if_pos (by simp [hmem]), increment_eq_merge_eventStat]
    · rw [if_neg hmem, if_neg (by simp [hmem])]
  · have hps : m.packet_size = none := by
      unfold SockMsgEvent.packet_size
      rw [if_neg h0]
    rw [step_skip hps]
    unfold touches
    rw [hps]
    simp

theorem foldl_step_index : ∀ (msgs : List SockMsgEvent) (acc : BatchAcc) (k : Interest),
    (msgs.foldl BatchAcc.step acc).index k
      = if (msgs.filter (touches k)).isEmpty then acc.index k
        else some (((acc.index k).getD default).merge (keyContribution k msgs)) := by
  intro msgs
  induction msgs with
  | nil =>
    intro acc k
    simp
  | cons m t ih =>
    intro acc k
    rw [List.foldl_cons, ih]
    by_cases hm : touches k m
    · have hflt : (m :: t).filter (touches k) = m :: t.filter (touches k) := by
        rw [List.filter_cons, if_pos hm]
      have hcontrib : keyContribution k (m :: t)
          = (eventStat m).merge (keyContribution k t) := by
        unfold keyContribution
        rw [hflt, List.map_cons, statSum_cons]
      rw [step_index, if_pos hm, hflt]
      by_cases he : (t.filter (touches k)).isEmpty
      · rw [if_pos he, if_neg (by simp)]
        have ht : t.filter (touches k) = [] := by
          rwa [List.isEmpty_iff] at he
        rw [hcontrib]
        unfold keyContribution
        rw [ht]
        simp only [List.map_nil]
        rw [show statSum [] = default from rfl, Stat.merge_default]
      · rw [if_neg he, if_neg (by simp)]
        rw [Option.getD_some, hcontrib, Stat.merge_assoc]
    · have hflt : (m :: t).filter (touches k) = t.filter (touches k) := by
        rw [List.filter_cons, if_neg hm]
      have hcontrib : keyContribution k (m :: t) = keyContribution k t := by
        unfold keyContribution
        rw [hflt]
      rw [step_index, if_neg hm, hflt, hcontrib]

/-- C4: on any batch-updated segment, stat_by_interest returns the
accumulated stat for a non-All key exactly when the key was updated (the
prior index entry merged with the batch's contribution, and none when the
key is absent and untouched), while Interest::All returns the separately
materialized total, whose bytes equal total(None) and whose packets equal
total_packet_count(). -/
theorem claim_c4 (seg : Segment) (msgs : List SockMsgEvent) (k : Interest)
    (hk : k ≠ .all) :
    (seg.batch_update msgs).stat_by_interest .all = some (seg.batch_update msgs).total
    ∧ (seg.batch_update msgs).total.rx + (seg.batch_update msgs).total.tx
      = (seg.batch_update msgs).total_get none
    ∧ (seg.batch_update msgs).total.rx_packet_count
        + (seg.batch_update msgs).total.tx_packet_count
      = (seg.batch_update msgs).total_packet_count
    ∧ (seg.batch_update msgs).stat_by_interest k
      = (if (msgs.filter (touches k)).isEmpty then seg.index k
        else some (((seg.index k).getD default).merge (keyContribution k msgs))) := by
  refine ⟨rfl, ?_, ?_, ?_⟩
  · show (seg.batch_update msgs).total.rx + (seg.batch_update msgs).total.tx
      = (seg.batch_update msgs).total.tx + (seg.batch_update msgs).total.rx
    omega
  · show (seg.batch_update msgs).total.rx_packet_count
        + (seg.batch_update msgs).total.tx_packet_count
      = (seg.batch_update msgs).total.tx_packet_count
        + (seg.batch_update msgs).total.rx_packet_count
    omega
  · have hred : (seg.batch_update msgs).stat_by_interest k
        = (seg.batch_update msgs).index k := by
      cases k with
      | all => exact absurd rfl hk
      | remoteIp ip => rfl
      | remoteSocket a => rfl
      | localSocket a => rfl
      | pid p => rfl
    rw [hred]
    have hidx : (seg.batch_update msgs).index
        = (msgs.foldl BatchAcc.step ⟨seg.index, seg.socks, 0, 0, 0, 0⟩).index := rfl
    rw [hidx, foldl_step_index]

/-- Witness for C4 on a one-event batch and the key Pid 1. -/
theorem claim_c4_witness :
    ((Interest.pid 1 : Interest) ≠ .all)
    ∧ (((default : Segment).batch_update [sampleMsg]).stat_by_interest .all
        = some ((default : Segment).batch_update [sampleMsg]).total
      ∧ ((default : Segment).batch_update [sampleMsg]).total.rx
          + ((default : Segment).batch_update [sampleMsg]).total.tx
        = ((default : Segment).batch_update [sampleMsg]).total_get none
      ∧ ((default : Segment).batch_update [sampleMsg]).total.rx_packet_count
          + ((default : Segment).batch_update [sampleMsg]).total.tx_packet_count
        = ((default : Segment).batch_update [sampleMsg]).total_packet_count
      ∧ ((default : Segment).batch_update [sampleMsg]).stat_by_interest (.pid 1)
        = (if ([sampleMsg].filter (touches (.pid 1))).isEmpty
          then (default : Segment).index (.pid 1)
          else some ((((default : Segment).index (.pid 1)).getD default).merge
            (keyContribution (.pid 1) [sampleMsg])))) :=
  ⟨by decide, claim_c4 default [sampleMsg] (.pid 1) (by decide)⟩

/-! ### Claim C7: socket-table collector sums -/

theorem doneApp_append_single (filt : UiFilter) (k : SockAddr)
    (done : List Socket) (so : Socket) :
    doneApp filt k (done ++ [so])
      = (doneApp filt k done
        || (decide (so.«local» = k) && so.match_interest filt.interest)) := by
  unfold doneApp
  rw [List.any_append]
  simp

theorem appearsIn_eq_doneApp (filt : UiFilter) (k : SockAddr) (tseg : TimeSegment) :
    appearsIn filt k tseg = doneApp filt k tseg.segment.socks := rfl

theorem cacheUpdate_keys (cache : List (SockAddr × Entry)) (k : SockAddr)
    (modify : Entry → Entry) (fresh : Entry) :
    (cacheUpdate cache k modify fresh).map Prod.fst
      = if k ∈ cache.map Prod.fst then cache.map Prod.fst
        else cache.map Prod.fst ++ [k] := by
  induction cache with
  | nil => simp [cacheUpdate]
  | cons p rest ih =>
    obtain ⟨k', e⟩ := p
    unfold cacheUpdate
    by_cases hk : k' = k
    · subst hk
      simp
    · simp only [if_neg hk, List.map_cons, ih]
      by_cases hmem : k ∈ rest.map Prod.fst
      · rw [if_pos hmem, if_pos (by simp [hmem])]
      · rw [if_neg hmem,
          if_neg (by
            simp only [List.map_cons, List.mem_cons]
            rintro (h | h)
            · exact hk h.symm
            · exact hmem h)]
        simp

theorem cacheUpdate_cases (cache : List (SockAddr × Entry)) (k : SockAddr)
    (modify : Entry → Entry) (fresh : Entry)
    (hnd : (cache.map Prod.fst).Nodup) :
    ∀ p ∈ cacheUpdate cache k modify fresh,
      (p ∈ cache ∧ p.1 ≠ k)
      ∨ (∃ e, (k, e) ∈ cache ∧ p = (k, modify e))
      ∨ (k ∉ cache.map Prod.fst ∧ p = (k, fresh)) := by
  induction cache with
  | nil =>
    intro p hp
    simp only [cacheUpdate, List.mem_singleton] at hp
    exact Or.inr (Or.inr ⟨by simp, hp⟩)
  | cons q rest ih =>
    obtain ⟨k', e⟩ := q
    intro p hp
    rw [List.map_cons, List.nodup_cons] at hnd
    by_cases hk : k' = k
    · subst hk
      unfold cacheUpdate at hp
      rw [if_pos rfl] at hp
      rcases List.mem_cons.mp hp with hp1 | hp2
      · exact Or.inr (Or.inl ⟨e, List.mem_cons.mpr (Or.inl rfl), hp1⟩)
      · refine Or.inl ⟨List.mem_cons.mpr (Or.inr hp2), ?_⟩
        intro hpk
        exact hnd.1 (hpk ▸ List.mem_map.mpr ⟨p, hp2, rfl⟩)
    · unfold cacheUpdate at hp
      rw [if_neg hk] at hp
      rcases List.mem_cons.mp hp with hp1 | hp2
      · exact Or.inl ⟨List.mem_cons.mpr (Or.inl hp1), by rw [hp1]; exact fun h => hk h⟩
      · rcases ih hnd.2 p hp2 with ⟨h1, h2⟩ | ⟨e', he1, he2⟩ | ⟨h1, h2⟩
        · exact Or.inl ⟨List.mem_cons.mpr (Or.inr h1), h2⟩
        · exact Or.inr (Or.inl ⟨e', List.mem_cons.mpr (Or.inr he1), he2⟩)
        · refine Or.inr (Or.inr ⟨?_, h2⟩)
          simp only [List.map_cons, List.mem_cons]
          rintro (h | h)
          · exact hk h.symm
          · exact h1 h

theorem filter_eq_nil_of_any_false {α : Type} {l : List α} {p : α → Bool}
    (h : l.any p = false) : l.filter p = [] := by
  rw [List.filter_eq_nil_iff]
  intro a ha
  rw [List.any_eq_false] at h
  exact h a ha

/-- One per-socket step of the collector preserves the mid-segment
invariant, provided the socket's local endpoint was not already processed in
this segment. -/
theorem innerStep (filt : UiFilter) (cutoff : Nat) (procd : List TimeSegment)
    (tseg : TimeSegment) (origin : Nat) (done : List Socket) (so : Socket)
    (cache : List (SockAddr × Entry))
    (hfresh : so.«local» ∉ done.map (·.«local»))
    (hI : InnerOK filt cutoff procd tseg done cache) :
    InnerOK filt cutoff procd tseg (done ++ [so])
      (collectSocket filt tseg origin (decide (cutoff ≤ tseg.ts)) cache so) := by
  obtain ⟨hnd, hkey, hiff, hsum⟩ := hI
  by_cases hmatch : so.match_interest filt.interest = true
  · -- the socket passes the pre-filter: its row is created or merged
    have hcol : collectSocket filt tseg origin (decide (cutoff ≤ tseg.ts)) cache so
        = cacheUpdate cache so.«local»
          (fun e =>
            { e with
              stat := e.stat.merge (segContribution so.«local» tseg),
              rate_stat := if decide (cutoff ≤ tseg.ts)
                then e.rate_stat.merge (segContribution so.«local» tseg)
                else e.rate_stat })
          ⟨so, segContribution so.«local» tseg, wallTime origin tseg.ts,
            if decide (cutoff ≤ tseg.ts) then segContribution so.«local» tseg else default,
            so.pid⟩ := by
      unfold collectSocket
      rw [hmatch]
      rfl
    have hdA : doneApp filt so.«local» (done ++ [so]) = true := by
      rw [doneApp_append_single, hmatch]
      simp
    have hdA0 : doneApp filt so.«local» done = false := by
      unfold doneApp
      rw [List.any_eq_false]
      intro so' hso'
      simp only [Bool.and_eq_true, decide_eq_true_eq, not_and]
      intro heq _
      exact hfresh (List.mem_map.mpr ⟨so', hso', heq⟩)
    have hdk : ∀ k : SockAddr, k ≠ so.«local» →
        doneApp filt k (done ++ [so]) = doneApp filt k done := by
      intro k hk
      rw [doneApp_append_single]
      have : decide (so.«local» = k) = false := by
        simp only [decide_eq_false_iff_not]
        exact fun h => hk h.symm
      rw [this]
      simp
    rw [hcol]
    have hkeys := cacheUpdate_keys cache so.«local»
      (fun e =>
        { e with
          stat := e.stat.merge (segContribution so.«local» tseg),
          rate_stat := if decide (cutoff ≤ tseg.ts)
            then e.rate_stat.merge (segContribution so.«local» tseg)
            else e.rate_stat })
      ⟨so, segContribution so.«local» tseg, wallTime origin tseg.ts,
        if decide (cutoff ≤ tseg.ts) then segContribution so.«local» tseg else default,
        so.pid⟩
    refine ⟨?_, ?_, ?_, ?_⟩
    · rw [hkeys]
      by_cases hmem : so.«local» ∈ cache.map Prod.fst
      · rw [if_pos hmem]; exact hnd
      · rw [if_neg hmem]
        simp only [List.nodup_append, List.nodup_singleton, true_and]
        exact ⟨hnd, by simpa using hmem⟩
    · intro p hp
      rcases cacheUpdate_cases _ _ _ _ hnd p hp with ⟨h1, _⟩ | ⟨e, he1, he2⟩ | ⟨_, h2⟩
      · exact hkey p h1
      · rw [he2]
        exact hkey (so.«local», e) he1
      · rw [h2]
    · intro k
      by_cases hk : k = so.«local»
      · rw [hk, hdA]
        simp only [Bool.or_true, true_iff]
        rw [hkeys]
        by_cases hmem : so.«local» ∈ cache.map Prod.fst
        · rw [if_pos hmem]; exact hmem
        · rw [if_neg hmem]
          exact List.mem_append.mpr (Or.inr (List.mem_singleton.mpr rfl))
      · rw [hdk k hk, hkeys]
        by_cases hmem : so.«local» ∈ cache.map Prod.fst
        · rw [if_pos hmem]
          exact hiff k
        · rw [if_neg hmem]
          constructor
          · intro h
            exact List.mem_append.mpr (Or.inl ((hiff k).mp h))
          · intro h
            rcases List.mem_append.mp h with h1 | h2
            · exact (hiff k).mpr h1
            · exact absurd (List.mem_singleton.mp h2) hk
    · intro p hp
      rcases cacheUpdate_cases _ _ _ _ hnd p hp with ⟨h1, h2⟩ | ⟨e, he1, he2⟩ | ⟨h1, h2⟩
      · rw [hdk p.1 h2]
        exact hsum p h1
      · obtain ⟨hs, hr⟩ := hsum (so.«local», e) he1
        simp only at hs hr
        rw [hdA0] at hs hr
        rw [if_neg (by simp)] at hs
        rw [if_neg (by simp)] at hr
        rw [he2]
        refine ⟨?_, ?_⟩
        · show e.stat.merge (segContribution so.«local» tseg) = _
          rw [hdA, if_pos rfl, hs]
        · show (if decide (cutoff ≤ tseg.ts) = true
              then e.rate_stat.merge (segContribution so.«local» tseg)
              else e.rate_stat) = _
          rw [hdA]
          cases hD : decide (cutoff ≤ tseg.ts)
          · rw [if_neg (by simp), if_neg (by simp), hr]
          · rw [if_pos rfl, if_pos (by simp), hr]
      · have hfalse : (procd.any (appearsIn filt so.«local»)
            || doneApp filt so.«local» done) = false := by
          cases hcase : (procd.any (appearsIn filt so.«local»)
              || doneApp filt so.«local» done)
          · rfl
          · exact absurd ((hiff so.«local»).mp hcase) h1
        rw [Bool.or_eq_false_iff] at hfalse
        have hfilt1 : procd.filter (appearsIn filt so.«local») = [] :=
          filter_eq_nil_of_any_false hfalse.1
        have hfilt2 : (procd.filter fun t' =>
            appearsIn filt so.«local» t' && decide (cutoff ≤ t'.ts)) = [] := by
          apply filter_eq_nil_of_any_false
          rw [List.any_eq_false]
          intro t' ht'
          have h3 : ¬ appearsIn filt so.«local» t' = true := by
            have hany := hfalse.1
            rw [List.any_eq_false] at hany
            exact hany t' ht'
          simp only [Bool.and_eq_true, not_and]
          intro h4
          exact absurd h4 h3
        rw [h2]
        refine ⟨?_, ?_⟩
        · show segContribution so.«local» tseg = _
          rw [hdA, if_pos rfl, hfilt1]
          simp only [List.map_nil]
          rw [show statSum [] = default from rfl, Stat.default_merge]
        · show (if decide (cutoff ≤ tseg.ts) = true
              then segContribution so.«local» tseg else default) = _
          rw [hdA, hfilt2]
          simp only [List.map_nil]
          rw [show statSum [] = default from rfl]
          cases hD : decide (cutoff ≤ tseg.ts)
          · rw [if_neg (by simp), if_neg (by simp)]
          · rw [if_pos rfl, if_pos (by simp), Stat.default_merge]
  · -- the socket fails the pre-filter: nothing changes
    have hmf : so.match_interest filt.interest = false := by
      revert hmatch
      cases so.match_interest filt.interest
      · intro _; rfl
      · intro h; exact absurd rfl h
    have hcol : collectSocket filt tseg origin (decide (cutoff ≤ tseg.ts)) cache so
        = cache := by
      unfold collectSocket
      rw [hmf]
      rfl
    have hdap : ∀ k : SockAddr, doneApp filt k (done ++ [so]) = doneApp filt k done := by
      intro k
      rw [doneApp_append_single, hmf]
      simp
    rw [hcol]
    refine ⟨hnd, hkey, ?_, ?_⟩
    · intro k
      rw [hdap k]
      exact hiff k
    · intro p hp
      rw [hdap p.1]
      exact hsum p hp

/-- Folding the per-socket body over the remaining sockets of a segment
preserves the mid-segment invariant. -/
theorem innerFold (filt : UiFilter) (cutoff : Nat) (procd : List TimeSegment)
    (tseg : TimeSegment) (origin : Nat) :
    ∀ (rest done : List Socket) (cache : List (SockAddr × Entry)),
    ((done ++ rest).map (·.«local»)).Nodup →
    InnerOK filt cutoff procd tseg done cache →
    InnerOK filt cutoff procd tseg (done ++ rest)
      (rest.foldl
        (fun c so => collectSocket filt tseg origin (decide (cutoff ≤ tseg.ts)) c so)
        cache) := by
  intro rest
  induction rest with
  | nil =>
    intro done cache _ hI
    rw [List.append_nil]
    exact hI
  | cons so rest' ih =>
    intro done cache hnd hI
    have hfresh : so.«local» ∉ done.map (·.«local») := by
      intro hmem
      rw [List.map_append, List.nodup_append] at hnd
      exact hnd.2.2 hmem (by simp)
    have hstep := innerStep filt cutoff procd tseg origin done so cache hfresh hI
    have hnd' : (((done ++ [so]) ++ rest').map (·.«local»)).Nodup := by
      rw [List.append_assoc]
      exact hnd
    have := ih (done ++ [so]) _ hnd' hstep
    rw [List.append_assoc] at this
    exact this

/-- Collecting one segment turns the cache invariant over the processed list
into the invariant over the processed list extended by that segment. -/
theorem collectSeg_CacheOK (filt : UiFilter) (cutoff : Nat)
    (procd : List TimeSegment) (origin : Nat) (c : SocketTableCollector)
    (tseg : TimeSegment) (hf : c.filter = filt) (hr : c.rate_until = cutoff)
    (hnd : (tseg.segment.socks.map (·.«local»)).Nodup)
    (hC : CacheOK filt cutoff procd c.socket_cache) :
    CacheOK filt cutoff (procd ++ [tseg]) (c.collect tseg origin).socket_cache := by
  have hcache : (c.collect tseg origin).socket_cache
      = tseg.segment.socks.foldl
          (fun cache so =>
            collectSocket filt tseg origin (decide (cutoff ≤ tseg.ts)) cache so)
          c.socket_cache := by
    unfold SocketTableCollector.collect
    rw [hf, hr]
  rw [hcache]
  have hI0 : InnerOK filt cutoff procd tseg [] c.socket_cache := by
    obtain ⟨h1, h2, h3, h4⟩ := hC
    refine ⟨h1, h2, ?_, ?_⟩
    · intro k
      rw [show doneApp filt k [] = false from rfl]
      simp only [Bool.or_false]
      exact h3 k
    · intro p hp
      rw [show doneApp filt p.1 [] = false from rfl]
      rw [if_neg (by simp), if_neg (by simp)]
      exact h4 p hp
  have hIend := innerFold filt cutoff procd tseg origin tseg.segment.socks [] c.socket_cache
    (by simpa using hnd) hI0
  rw [List.nil_append] at hIend
  obtain ⟨h1, h2, h3, h4⟩ := hIend
  refine ⟨h1, h2, ?_, ?_⟩
  · intro k
    rw [← h3 k]
    rw [List.any_append]
    simp only [List.any_cons, List.any_nil, Bool.or_false]
    rw [appearsIn_eq_doneApp]
  · intro p hp
    obtain ⟨hs, hr2⟩ := h4 p hp
    constructor
    · rw [hs, List.filter_append]
      rw [show List.filter (appearsIn filt p.1) [tseg]
          = if appearsIn filt p.1 tseg then [tseg] else [] by
        simp [List.filter_cons]]
      rw [appearsIn_eq_doneApp]
      cases hD : doneApp filt p.1 tseg.segment.socks
      · rw [if_neg (by simp), if_neg (by simp), List.append_nil]
      · rw [if_pos rfl, if_pos rfl, List.map_append, List.map_singleton,
          statSum_concat]
    · rw [hr2, List.filter_append]
      rw [show List.filter (fun t' => appearsIn filt p.1 t' && decide (cutoff ≤ t'.ts)) [tseg]
          = if appearsIn filt p.1 tseg && decide (cutoff ≤ tseg.ts) then [tseg] else [] by
        simp [List.filter_cons]]
      rw [appearsIn_eq_doneApp]
      cases hD : doneApp filt p.1 tseg.segment.socks
      · rw [show (false && decide (cutoff ≤ tseg.ts)) = false from rfl]
        rw [if_neg (by simp), if_neg (by simp), List.append_nil]
      · rw [show (true && decide (cutoff ≤ tseg.ts)) = decide (cutoff ≤ tseg.ts) from by simp]
        cases hE : decide (cutoff ≤ tseg.ts)
        · rw [if_neg (by simp), if_neg (by simp), List.append_nil]
        · rw [if_pos rfl, if_pos rfl, List.map_append, List.map_singleton,
            statSum_concat]

theorem collect_filter_rate (c : SocketTableCollector) (tseg : TimeSegment)
    (origin : Nat) :
    (c.collect tseg origin).filter = c.filter
    ∧ (c.collect tseg origin).rate_until = c.rate_until := ⟨rfl, rfl⟩

/-- Folding the collector over a list of segments preserves the cache
invariant, extending the processed list. -/
theorem outerFold (filt : UiFilter) (cutoff : Nat) (origin : Nat) :
    ∀ (L : List TimeSegment) (procd : List TimeSegment) (c : SocketTableCollector),
    (∀ tseg ∈ L, (tseg.segment.socks.map (·.«local»)).Nodup) →
    c.filter = filt → c.rate_until = cutoff →
    CacheOK filt cutoff procd c.socket_cache →
    CacheOK filt cutoff (procd ++ L)
      ((L.foldl (fun c t => c.collect t origin) c).socket_cache) := by
  intro L
  induction L with
  | nil =>
    intro procd c _ _ _ hC
    rw [List.append_nil]
    exact hC
  | cons tseg rest ih =>
    intro procd c hnd hf hr hC
    rw [List.foldl_cons]
    have h1 := collectSeg_CacheOK filt cutoff procd origin c tseg hf hr
      (hnd tseg (List.mem_cons.mpr (Or.inl rfl))) hC
    have h2 := ih (procd ++ [tseg]) (c.collect tseg origin)
      (fun t ht => hnd t (List.mem_cons.mpr (Or.inr ht)))
      ((collect_filter_rate c tseg origin).1.trans hf)
      ((collect_filter_rate c tseg origin).2.trans hr)
      h1
    rw [List.append_assoc] at h2
    simpa using h2

theorem mem_of_mem_takeWhile {α : Type} {p : α → Bool} :
    ∀ {l : List α} {x : α}, x ∈ l.takeWhile p → x ∈ l := by
  intro l
  induction l with
  | nil => intro x hx; simp [List.takeWhile] at hx
  | cons a t ih =>
    intro x hx
    cases hpa : p a
    · rw [List.takeWhile_cons, hpa] at hx
      simp at hx
    · rw [List.takeWhile_cons, hpa] at hx
      rcases List.mem_cons.mp hx with rfl | hxt
      · exact List.mem_cons.mpr (Or.inl rfl)
      · exact List.mem_cons.mpr (Or.inr (ih hxt))

/-- C7: in every socket-table collection at time ts (with now = ts truncated
to the window and rate cutoff max(now - rate_window, window) truncated, via
saturating subtraction), each returned row's stat is the componentwise sum of
its local endpoint's per-segment LocalSocket stats over the visited segments
(those within the collection window, under the pre-filter) in which the
endpoint appears, and its rate_stat sums over exactly those of the visited
segments whose key is at or past the rate cutoff.  The per-segment socket
sets are assumed duplicate-free on local endpoints, which the DashSet keyed
by local-endpoint equality guarantees. -/
theorem claim_c7 (cfg : SocketTableConfig) (store : Store) (ts origin : Nat)
    (_hw : 0 < store.window)
    (hnd : ∀ tseg ∈ store.segments, (tseg.segment.socks.map (·.«local»)).Nodup) :
    ∀ e ∈ (cfg.build.collect ts origin store).dataset,
      e.stat = statSum (((visitedSegments store (trunc ts store.window)
          cfg.collection_window).filter
          (appearsIn cfg.filter e.socket.«local»)).map (segContribution e.socket.«local»))
      ∧ e.rate_stat = statSum (((visitedSegments store (trunc ts store.window)
          cfg.collection_window).filter fun tseg =>
            appearsIn cfg.filter e.socket.«local» tseg
              && decide (trunc (max (trunc ts store.window - cfg.rate_window)
                store.window) store.window ≤ tseg.ts)).map
          (segContribution e.socket.«local»)) := by
  intro e he
  have hds : (cfg.build.collect ts origin store).dataset
      = ((visitedSegments store (trunc ts store.window) cfg.collection_window).foldl
          (fun c t => c.collect t origin)
          (⟨cfg.filter, [], none, none,
            trunc (max (trunc ts store.window - cfg.rate_window) store.window)
              store.window⟩ : SocketTableCollector)).socket_cache.map (·.2) := rfl
  rw [hds] at he
  obtain ⟨p, hp, hpe⟩ := List.mem_map.mp he
  have hC0 : CacheOK cfg.filter
      (trunc (max (trunc ts store.window - cfg.rate_window) store.window) store.window)
      [] ([] : List (SockAddr × Entry)) := by
    refine ⟨by simp, by simp, ?_, by simp⟩
    intro k
    simp
  have hndL : ∀ tseg ∈ visitedSegments store (trunc ts store.window) cfg.collection_window,
      (tseg.segment.socks.map (·.«local»)).Nodup := by
    intro t ht
    exact hnd t (List.mem_reverse.mp (mem_of_mem_takeWhile ht))
  have hout := outerFold cfg.filter
    (trunc (max (trunc ts store.window - cfg.rate_window) store.window) store.window)
    origin
    (visitedSegments store (trunc ts store.window) cfg.collection_window)
    []
    (⟨cfg.filter, [], none, none,
      trunc (max (trunc ts store.window - cfg.rate_window) store.window)
        store.window⟩ : SocketTableCollector)
    hndL rfl rfl hC0
  rw [List.nil_append] at hout
  obtain ⟨_, h2, _, h4⟩ := hout
  have hkeyp := h2 p hp
  obtain ⟨hs, hr⟩ := h4 p hp
  rw [← hpe]
  rw [show (p.2.socket.«local») = p.1 from hkeyp]
  exact ⟨hs, hr⟩

/-- Witness for C7: a store with window 100 holding segments keyed 0 and 100
(one Tx and one Rx event at ts = 50, one Tx event at ts = 150), collected at
ts = 250 with collection window 2000 and rate window 300. -/
theorem claim_c7_witness :
    0 < (((Store.new 100 16).batch_update 50 [sampleMsg, sampleMsgRx]).batch_update 150
        [sampleMsg]).window
    ∧ (∀ tseg ∈ (((Store.new 100 16).batch_update 50 [sampleMsg, sampleMsgRx]).batch_update 150
        [sampleMsg]).segments, (tseg.segment.socks.map (·.«local»)).Nodup)
    ∧ (∀ e ∈ ((SocketTableConfig.mk .noFilter 2000 300).build.collect 250 0
        (((Store.new 100 16).batch_update 50 [sampleMsg, sampleMsgRx]).batch_update 150
          [sampleMsg])).dataset,
      e.stat = statSum (((visitedSegments
          (((Store.new 100 16).batch_update 50 [sampleMsg, sampleMsgRx]).batch_update 150
            [sampleMsg])
          (trunc 250 (((Store.new 100 16).batch_update 50 [sampleMsg, sampleMsgRx]).batch_update 150
            [sampleMsg]).window)
          (SocketTableConfig.mk .noFilter 2000 300).collection_window).filter
          (appearsIn (SocketTableConfig.mk .noFilter 2000 300).filter e.socket.«local»)).map
          (segContribution e.socket.«local»))
      ∧ e.rate_stat = statSum (((visitedSegments
          (((Store.new 100 16).batch_update 50 [sampleMsg, sampleMsgRx]).batch_update 150
            [sampleMsg])
          (trunc 250 (((Store.new 100 16).batch_update 50 [sampleMsg, sampleMsgRx]).batch_update 150
            [sampleMsg]).window)
          (SocketTableConfig.mk .noFilter 2000 300).collection_window).filter fun tseg =>
            appearsIn (SocketTableConfig.mk .noFilter 2000 300).filter e.socket.«local» tseg
              && decide (trunc (max (trunc 250 (((Store.new 100 16).batch_update 50
                    [sampleMsg, sampleMsgRx]).batch_update 150 [sampleMsg]).window
                  - (SocketTableConfig.mk .noFilter 2000 300).rate_window)
                  (((Store.new 100 16).batch_update 50 [sampleMsg, sampleMsgRx]).batch_update 150
                    [sampleMsg]).window)
                (((Store.new 100 16).batch_update 50 [sampleMsg, sampleMsgRx]).batch_update 150
                  [sampleMsg]).window ≤ tseg.ts)).map
          (segContribution e.socket.«local»))) :=
  ⟨by decide, by decide,
    claim_c7 (SocketTableConfig.mk .noFilter 2000 300)
      (((Store.new 100 16).batch_update 50 [sampleMsg, sampleMsgRx]).batch_update 150
        [sampleMsg])
      250 0 (by decide) (by decide)⟩

end Ptraf
